import Mathlib


/-!
# Verification of the AFNI format-adapter module (`nitransforms/io/afni.py`)

This development shallowly embeds the AFNI I/O adapter of the repository in
Lean 4 and proves / refutes the specification claims about it.

Modelling conventions:

* Python strings are modelled as `List Char`; `'\n'` is the only line
  separator recognised by the model of `str.splitlines` (the source also
  breaks at `'\r'` and other unicode separators, which no claim exercises).
* IEEE-754 doubles are modelled by exact rationals `ℚ`.  Parsing a decimal
  literal yields its exact rational value; the `"%g"` C format is modelled
  by rounding the exact value to 6 significant decimal digits
  (round-half-to-even) and rendering the rounded value the way `%g` lays
  out digits.  `nan`/`inf` tokens and underscore separators are outside the
  model.  `np.genfromtxt` converts unparseable tokens to NaN; the model
  returns a junk value (`0`) for such tokens, and every theorem whose
  conclusion depends on token *values* carries the hypothesis that all
  tokens parse, so the junk value never matters.
* Real-valued geometry (`nibabel.affines.obliquity`, `voxel_sizes`,
  `np.linalg.inv`) is modelled over `ℝ`; `np.linalg.inv` is modelled by
  Mathlib's nonsingular inverse (the source raises `LinAlgError` on a
  singular argument; theorems about inverses carry invertibility
  hypotheses so the two models agree on every statement proved).
-/

/-! ## Python string primitives -/

/-- The characters Python's `str.strip` / `str.split` treat as whitespace
(ASCII part; unicode whitespace is outside the model). -/
def pyIsSpace (c : Char) : Bool :=
  c = ' ' || c = '\t' || c = '\n' || c = '\r' || c = Char.ofNat 11 || c = Char.ofNat 12

/-- Split a character list at every separator char (chars satisfying `p`),
keeping empty chunks, like `str.split(sep)` does for a single separator.
`splitP p l` always returns at least one chunk. -/
def splitP (p : Char → Bool) : List Char → List (List Char)
  | [] => [[]]
  | c :: t =>
    if p c then [] :: splitP p t
    else
      match splitP p t with
      | [] => [[c]]
      | h :: r => (c :: h) :: r

/-- `str.strip()`: drop leading and trailing whitespace. -/
def pyStrip (l : List Char) : List Char :=
  ((l.dropWhile pyIsSpace).reverse.dropWhile pyIsSpace).reverse

/-- `str.splitlines()` (with `'\n'` as the modelled separator): split at
newlines and drop the trailing empty chunk produced by a final newline. -/
def pySplitlines (l : List Char) : List (List Char) :=
  let parts := splitP (fun c => c = '\n') l
  if parts.getLastD [] = [] then parts.dropLast else parts

/-- `str.split()` with no argument (and the `np.genfromtxt` whitespace
tokenizer): maximal runs of non-whitespace characters. -/
def pyTokens (l : List Char) : List (List Char) :=
  (splitP pyIsSpace l).filter (· ≠ [])

/-- `np.genfromtxt`'s default `comments="#"` handling: everything from the
first `'#'` on is discarded before the line is tokenized. -/
def commentStrip (l : List Char) : List Char :=
  l.takeWhile (fun c => decide (c ≠ '#'))

/-- `line.startswith("#")`. -/
def pyStartsWithHash : List Char → Bool
  | '#' :: _ => true
  | _ => false

/-- The banner needle `"3dvolreg matrices"` used by
`AFNILinearTransform.from_string`. -/
def volregNeedle : List Char := String.toList "3dvolreg matrices"

/-- `needle in line` (Python substring test). -/
def pyContains (needle l : List Char) : Bool := decide (needle <:+: l)

/-- Join chunks with a separator character (`sep.join` in Python). -/
def joinSep (sep : Char) : List (List Char) → List Char
  | [] => []
  | [x] => x
  | x :: xs => x ++ sep :: joinSep sep xs

/-! ## Decimal number parsing (Python `float` / `np.genfromtxt` tokens)

Tokens are parsed exactly into `ℚ`.  The model accepts the grammar
`[+-]? (digits [. digits?] | . digits) ([e] [+-]? digits)?` with a
lowercase exponent marker; `nan`, `inf`, underscores, and uppercase `E`
are outside the model (no claim exercises them). -/

def isDigitC (c : Char) : Bool := 48 ≤ c.toNat && c.toNat ≤ 57

/-- Value of a most-significant-digit-first digit string. -/
def digitsVal (l : List Char) : ℕ := l.foldl (fun a c => 10 * a + (c.toNat - 48)) 0

/-- Parse a nonempty all-digit chunk. -/
def parseUInt? (l : List Char) : Option ℕ :=
  if l ≠ [] ∧ l.all isDigitC then some (digitsVal l) else none

/-- Interpret the result of splitting a mantissa at `'.'`. -/
def parseMantissaAux : List (List Char) → Option ℚ
  | [a] => if a ≠ [] ∧ a.all isDigitC then some (digitsVal a) else none
  | [a, b] =>
    if (a ≠ [] ∨ b ≠ []) ∧ a.all isDigitC ∧ b.all isDigitC then
      some ((digitsVal a : ℚ) + (digitsVal b : ℚ) / 10 ^ b.length)
    else none
  | _ => none

/-- Parse `digits[.digits]` / `.digits` / `digits.` into an exact rational. -/
def parseMantissa? (l : List Char) : Option ℚ :=
  parseMantissaAux (splitP (fun c => c = '.') l)

/-- Parse an exponent with optional sign. -/
def parseExp? (l : List Char) : Option ℤ :=
  match l with
  | '+' :: t => (parseUInt? t).map Int.ofNat
  | '-' :: t => (parseUInt? t).map (fun n => -Int.ofNat n)
  | t => (parseUInt? t).map Int.ofNat

/-- Interpret the result of splitting a float literal at `'e'`. -/
def parseUnsignedAux : List (List Char) → Option ℚ
  | [m] => parseMantissa? m
  | [m, x] =>
    match parseMantissa? m, parseExp? x with
    | some mv, some xv => some (mv * (10 : ℚ) ^ xv)
    | _, _ => none
  | _ => none

/-- Parse an unsigned float literal (mantissa with optional `e` exponent). -/
def parseUnsigned? (l : List Char) : Option ℚ :=
  parseUnsignedAux (splitP (fun c => c = 'e') l)

/-- Parse a float literal with optional sign (model of Python `float(tok)`,
yielding the exact rational value of the decimal literal). -/
def parseFloat? (l : List Char) : Option ℚ :=
  match l with
  | '+' :: t => parseUnsigned? t
  | '-' :: t => (parseUnsigned? t).map (fun q => -q)
  | t => parseUnsigned? t

/-- `np.genfromtxt` value of one token: unparseable tokens become NaN in the
source; the model returns the junk value `0` for them (see the module
docstring — theorems that depend on values assume all tokens parse). -/
def tokVal (l : List Char) : ℚ := (parseFloat? l).getD 0

/-! ## `"%g"` formatting model

`"%g" % x` (C `printf` `%g`, default precision 6) prints the double `x`
rounded to 6 significant decimal digits, using fixed-point layout when the
decimal exponent `e` of the rounded value satisfies `-4 ≤ e < 6` and
scientific layout (`d.dddddde±XX`) otherwise, with trailing zeros of the
fraction removed.  The model rounds the exact rational value
(round-half-to-even) and renders the same layout. -/

/-- Decimal exponent: for `v ≠ 0`, the unique `e` with `10^e ≤ |v| < 10^(e+1)`. -/
def decExp (v : ℚ) : ℤ := Int.log 10 |v|

/-- Round a rational to the nearest integer, ties to even. -/
def rhe (x : ℚ) : ℤ :=
  if x - ⌊x⌋ < 1/2 then ⌊x⌋
  else if 1/2 < x - ⌊x⌋ then ⌊x⌋ + 1
  else if 2 ∣ ⌊x⌋ then ⌊x⌋ else ⌊x⌋ + 1

/-- Signed 6-significant-digit mantissa and decimal exponent of `v ≠ 0`:
`v` rounds to `±m * 10^(e-5)` with `10^5 ≤ m < 10^6`. -/
def gparts (v : ℚ) : ℤ × ℤ :=
  let e := decExp v
  let m0 := rhe (|v| * (10 : ℚ) ^ ((5 : ℤ) - e))
  let me : ℤ × ℤ := if m0 = 10 ^ 6 then (10 ^ 5, e + 1) else (m0, e)
  (if v < 0 then -me.1 else me.1, me.2)

/-- The value printed by `"%g"`: `v` rounded to 6 significant decimal digits. -/
def round6 (v : ℚ) : ℚ :=
  if v = 0 then 0 else ((gparts v).1 : ℚ) * (10 : ℚ) ^ ((gparts v).2 - 5)

/-- Decimal digits of a natural number, most significant first. -/
def natDigits (n : ℕ) : List ℕ := (Nat.digits 10 n).reverse

def digitChar (d : ℕ) : Char := Char.ofNat (48 + d)

def renderNat (n : ℕ) : List Char :=
  if n = 0 then ['0'] else (natDigits n).map digitChar

/-- Remove trailing zeros from a most-significant-first digit list. -/
def stripZeros (ds : List ℕ) : List ℕ := (ds.reverse.dropWhile (· = 0)).reverse

/-- Render the `%g` layout of the nonzero rounded value `±m * 10^(e-5)`
(`m` has exactly 6 digits). -/
def renderParts (neg : Bool) (m : ℕ) (e : ℤ) : List Char :=
  let sign : List Char := if neg then ['-'] else []
  let ds := natDigits m
  if -4 ≤ e ∧ e < 6 then
    if 0 ≤ e then
      let ip := ds.take (e.toNat + 1)
      let fp := stripZeros (ds.drop (e.toNat + 1))
      sign ++ ip.map digitChar ++ (if fp = [] then [] else '.' :: fp.map digitChar)
    else
      let fp := stripZeros ds
      sign ++ ['0', '.'] ++ (List.replicate (-(e + 1)).toNat '0') ++ fp.map digitChar
  else
    let fp := stripZeros ds.tail
    let ea := e.natAbs
    sign ++ [digitChar (ds.headD 0)] ++
      (if fp = [] then [] else '.' :: fp.map digitChar) ++
      ['e'] ++ (if e < 0 then ['-'] else ['+']) ++
      (if ea < 10 then '0' :: renderNat ea else renderNat ea)

/-- Model of `"%g" % v`. -/
def renderG (v : ℚ) : List Char :=
  if v = 0 then ['0']
  else renderParts (decide ((gparts v).1 < 0)) (gparts v).1.natAbs (gparts v).2

/-! ### Digit-arithmetic lemmas -/

/-- Value of a most-significant-first digit list (ℕ version). -/
def msdVal (ds : List ℕ) : ℕ := ds.foldl (fun a d => 10 * a + d) 0

/-! ### Character classes of rendered output -/

def goodChar (c : Char) : Bool :=
  isDigitC c || c = '-' || c = '+' || c = '.' || c = 'e'

/-! ## The ℚ-matrix model of the AFNI linear-transform classes -/

abbrev Mat4 := Matrix (Fin 4) (Fin 4) ℚ

/-- `LPS = np.diag([-1, -1, 1, 1])`. -/
def LPSQ : Mat4 := Matrix.diagonal ![-1, -1, 1, 1]

/-- Python exception model: `TransformFileError` (with its message) and
`ValueError` (raised by `reshape` on a wrong-sized array). -/
inductive PyErr : Type
  | transformFileError : List Char → PyErr
  | valueError : PyErr
deriving DecidableEq

/-- `AFNILinearTransform`: the `structarr["parameters"]` 4×4 matrix is the
only state the claims touch (the rest of `LinearParameters` is container
boilerplate from `io/base.py`, which is not part of this repository
snapshot). -/
structure AFNILinearTransform : Type where
  parameters : Mat4
deriving DecidableEq

namespace AFNILinearTransform

/-- `from_ras`: `parameters = np.swapaxes(LPS @ ras @ LPS, 0, 1)` followed by
`structarr["parameters"] = parameters.T`; for a single 4×4 matrix the two
transposes cancel.  `moving`/`reference` are accepted and ignored exactly as
in the source. -/
def from_ras {α β : Type} (ras : Mat4) (moving : Option α)
    (reference : Option β) : AFNILinearTransform :=
  ⟨Matrix.transpose (Matrix.transpose (LPSQ * ras * LPSQ))⟩

/-- `to_ras`: `LPS @ np.swapaxes(parameters.T, 0, 1) @ LPS`. -/
def to_ras {α β : Type} (self : AFNILinearTransform) (moving : Option α)
    (reference : Option β) : Mat4 :=
  LPSQ * Matrix.transpose (Matrix.transpose self.parameters) * LPSQ

end AFNILinearTransform

/-- The line filter of `AFNILinearTransform.from_string`: keep lines whose
`strip()` is truthy and that neither start with `"#"` nor contain
`"3dvolreg matrices"`. -/
def keepSingle (l : List Char) : Bool :=
  decide (pyStrip l ≠ []) && !(pyStartsWithHash l || pyContains volregNeedle l)

/-- The retained data lines of `AFNILinearTransform.from_string`. -/
def keptSingle (s : List Char) : List (List Char) :=
  (pySplitlines s).filter keepSingle

/-- Build the stored 4×4 parameter matrix from the 12 values of the first
data line: `np.vstack((values.reshape((3, 4)), (0, 0, 0, 1)))`. -/
def buildParams (vals : List ℚ) : Mat4 :=
  Matrix.of fun i j =>
    if (i : ℕ) < 3 then vals.getD (4 * (i : ℕ) + (j : ℕ)) 0
    else if (j : ℕ) = 3 then 1 else 0

namespace AFNILinearTransform

/-- `AFNILinearTransform.from_string`.  `np.genfromtxt` first discards the
`'#'`-comment tail of the line (`comments="#"` is its default), then
tokenizes the rest on whitespace (the count must be 12 for
`reshape((3, 4))`, otherwise `ValueError`); the implicit fourth row is
`[0,0,0,1]`. -/
def from_string (s : List Char) : Except PyErr AFNILinearTransform :=
  match keptSingle s with
  | [] => .error (.transformFileError [])
  | l :: _ =>
    if (pyTokens (commentStrip l)).length = 12 then
      .ok ⟨buildParams ((pyTokens (commentStrip l)).map tokVal)⟩
    else .error .valueError

/-- `__str__`: the first three rows, flattened row-major, rendered with
`"%g"` and joined by tabs. -/
def strRepr (self : AFNILinearTransform) : List Char :=
  joinSep '\t' ((paramList self).map renderG)
where
  /-- `structarr["parameters"][:3, :].reshape(-1)` -/
  paramList (self : AFNILinearTransform) : List ℚ :=
    [self.parameters 0 0, self.parameters 0 1, self.parameters 0 2, self.parameters 0 3,
     self.parameters 1 0, self.parameters 1 1, self.parameters 1 2, self.parameters 1 3,
     self.parameters 2 0, self.parameters 2 1, self.parameters 2 2, self.parameters 2 3]

/-- The banner line emitted by `to_string`. -/
def bannerLine : List Char :=
  String.toList "# 3dvolreg matrices (DICOM-to-DICOM, row-by-row):"

/-- `to_string`: the one-line representation with trailing newline,
prefixed by the banner when requested.  The final `string % self` of the
source is a no-op (`self` is a mapping and the string holds no `%(key)s`
pattern), so it is not modelled. -/
def to_string (self : AFNILinearTransform) (banner : Bool) : List Char :=
  let s := self.strRepr ++ ['\n']
  if banner then bannerLine ++ '\n' :: s else s

end AFNILinearTransform

/-- `AFNILinearTransformArray`: the list of inner transforms
(`BaseLinearTransformList.xforms`). -/
structure AFNILinearTransformArray : Type where
  xforms : List AFNILinearTransform
deriving DecidableEq

/-- The line filter of `AFNILinearTransformArray.from_string`: keep lines
whose `strip()` is truthy and that do not start with `"#"` (note: unlike
the single-transform filter, no `"3dvolreg matrices"` test). -/
def keepArray (l : List Char) : Bool :=
  decide (pyStrip l ≠ []) && !pyStartsWithHash l

/-- The retained (and stripped) data lines of
`AFNILinearTransformArray.from_string`. -/
def keptArray (s : List Char) : List (List Char) :=
  ((pySplitlines s).filter keepArray).map pyStrip

/-- Sequential effectful map (the list comprehension
`[from_string(line) for line in lines]`): the first exception propagates. -/
def mapExcept {ε α β : Type} (f : α → Except ε β) : List α → Except ε (List β)
  | [] => .ok []
  | a :: t =>
    match f a with
    | .error e => .error e
    | .ok b =>
      match mapExcept f t with
      | .error e => .error e
      | .ok bs => .ok (b :: bs)

namespace AFNILinearTransformArray

/-- `AFNILinearTransformArray.from_string`. -/
def from_string (s : List Char) : Except PyErr AFNILinearTransformArray :=
  match keptArray s with
  | [] => .error (.transformFileError (String.toList "Input string is empty."))
  | _ :: _ =>
    match mapExcept AFNILinearTransform.from_string (keptArray s) with
    | .error e => .error e
    | .ok xs => .ok ⟨xs⟩

/-- `from_ras` over a stack of matrices (axis 0 of the 3-D array modelled
as a list). -/
def from_ras {α β : Type} (ras : List Mat4) (moving : Option α)
    (reference : Option β) : AFNILinearTransformArray :=
  ⟨ras.map fun M => AFNILinearTransform.from_ras M moving reference⟩

/-- `to_ras`: `np.stack` of the members' RAS matrices. -/
def to_ras {α β : Type} (self : AFNILinearTransformArray) (moving : Option α)
    (reference : Option β) : List Mat4 :=
  self.xforms.map fun x => x.to_ras moving reference

/-- `to_string`: for each transform, the non-blank stripped lines of its
`to_string(banner=(i == 0))`, all joined by newlines. -/
def to_string (self : AFNILinearTransformArray) : List Char :=
  joinSep '\n'
    ((self.xforms.enum).bind fun p =>
      ((pySplitlines (p.2.to_string (p.1 == 0))).filter
        (fun l => decide (pyStrip l ≠ []))).map pyStrip)

end AFNILinearTransformArray

/-! ## The displacements-field model -/

/-- A numpy array: shape plus row-major flattened data. -/
structure NDArr : Type where
  shape : List ℕ
  data : List ℚ
deriving DecidableEq

/-- The image-object contract used by `AFNIDisplacementsField.from_image`:
header data shape (modelled by the array's shape), array data, affine, and
the `file_map["image"].filename` used in the error message. -/
structure NiftiImage : Type where
  arr : NDArr
  affine : Mat4
  filename : List Char

/-- The shape test of `AFNIDisplacementsField.from_image`:
`len(shape) == 5 and shape[-2] == 1 and shape[-1] in (2, 3)` (the source
tests the negation with short-circuiting `or`). -/
def conformingShape (shape : List ℕ) : Prop :=
  shape.length = 5 ∧ shape.getD 3 0 = 1 ∧ (shape.getD 4 0 = 2 ∨ shape.getD 4 0 = 3)

instance (shape : List ℕ) : Decidable (conformingShape shape) := by
  unfold conformingShape
  infer_instance

/-- `field[..., (0, 1)] *= -1.0` on the squeezed array, acting on the
row-major flattened data: entries whose last-axis index (`i % C`) is 0 or 1
are negated. -/
def negFirstTwo (C : ℕ) : ℕ → List ℚ → List ℚ
  | _, [] => []
  | i, x :: t => (if i % C = 0 ∨ i % C = 1 then -x else x) :: negFirstTwo C (i + 1) t

/-- `np.squeeze`: remove all axes of length 1 (row-major data unchanged). -/
def npSqueeze (shape : List ℕ) : List ℕ := shape.filter (· ≠ 1)

namespace AFNIDisplacementsField

/-- `AFNIDisplacementsField.from_image`. -/
def from_image (img : NiftiImage) : Except PyErr NiftiImage :=
  if conformingShape img.arr.shape then
    .ok ⟨⟨npSqueeze img.arr.shape,
          negFirstTwo (img.arr.shape.getD 4 0) 0 img.arr.data⟩,
         img.affine, img.filename⟩
  else
    .error (.transformFileError
      (String.toList "Displacements field \"" ++ img.filename ++
        String.toList "\" does not come from AFNI."))

end AFNIDisplacementsField

/-! ## The ℝ-valued geometry model (obliquity and warpdrive)

`nibabel.affines.voxel_sizes` / `obliquity` are external-library calls the
adapter depends on; they are embedded from the nibabel definitions:
`voxel_sizes(affine) = sqrt((affine[:-1, :-1] ** 2).sum(0))` and
`obliquity(affine) = arccos(abs(affine[:-1, :-1] / voxel_sizes).max(1))`. -/

abbrev Mat4R := Matrix (Fin 4) (Fin 4) ℝ

noncomputable section RealGeometry

/-- `LPS = np.diag([-1, -1, 1, 1])` over ℝ. -/
def LPSR : Mat4R := Matrix.diagonal ![-1, -1, 1, 1]

/-- `nibabel.affines.voxel_sizes`: euclidean norm of each rotation column. -/
def voxel_sizes (A : Mat4R) (j : Fin 3) : ℝ :=
  Real.sqrt ((A 0 j.castSucc) ^ 2 + (A 1 j.castSucc) ^ 2 + (A 2 j.castSucc) ^ 2)

/-- Best cosine of row `i`: `abs(affine[:-1,:-1] / vs).max(axis=1)`. -/
def bestCos (A : Mat4R) (i : Fin 3) : ℝ :=
  max (max |A i.castSucc 0 / voxel_sizes A 0| |A i.castSucc 1 / voxel_sizes A 1|)
    |A i.castSucc 2 / voxel_sizes A 2|

/-- `nibabel.affines.obliquity`: per-row angle in radians. -/
def obliquity (A : Mat4R) (i : Fin 3) : ℝ := Real.arccos (bestCos A i)

/-- `obliquity(affine).min()`. -/
def obliquityMin (A : Mat4R) : ℝ :=
  min (min (obliquity A 0) (obliquity A 1)) (obliquity A 2)

/-- `OBLIQUITY_THRESHOLD_DEG = 0.01`. -/
def OBLIQUITY_THRESHOLD_DEG : ℝ := 0.01

/-- `_is_oblique(affine, thres)`:
`(obliquity(affine).min() * 180 / pi) > thres`. -/
def _is_oblique (affine : Mat4R) (thres : ℝ) : Prop :=
  obliquityMin affine * 180 / Real.pi > thres

/-- The spec's notion: "the minimum obliquity angle (derived from the
rotation submatrix of the affine), expressed in degrees". -/
def minObliquityAngleDeg (affine : Mat4R) : ℝ :=
  obliquityMin affine * 180 / Real.pi

/-- `np.abs(oblique[:3, :3]).max(0)`: per-column max of absolute values. -/
def colMaxAbs (O : Mat4R) (j : Fin 3) : ℝ :=
  max (max |O 0 j.castSucc| |O 1 j.castSucc|) |O 2 j.castSucc|

/-- The de-obliqued rotation block of `_afni_warpdrive`:
`plumb_r = oblique[:3,:3] / colmax; plumb_r[abs(plumb_r) < 1] = 0;
plumb_r *= voxel_sizes(oblique)`. -/
def plumbR (O : Mat4R) (i j : Fin 3) : ℝ :=
  (if |O i.castSucc j.castSucc / colMaxAbs O j| < 1 then 0
   else O i.castSucc j.castSucc / colMaxAbs O j) * voxel_sizes O j

/-- `plumb = np.eye(4); plumb[:3, :3] = plumb_r` (before re-centering). -/
def plumb0 (O : Mat4R) : Mat4R :=
  Matrix.of fun i j =>
    if hi : (i : ℕ) < 3 then
      if hj : (j : ℕ) < 3 then plumbR O ⟨i, hi⟩ ⟨j, hj⟩ else 0
    else if (j : ℕ) = 3 then 1 else 0

/-- `np.hstack((0.5 * shape, 1.0))`: the homogeneous grid-centre vector. -/
def centerVec (shape : Fin 3 → ℕ) : Fin 4 → ℝ :=
  fun i => if hi : (i : ℕ) < 3 then (shape ⟨i, hi⟩ : ℝ) / 2 else 1

/-- The plumb affine after `plumb[:3, 3] = -plumb_c[:3] + obliq_c[:3]`. -/
def plumbAff (O : Mat4R) (shape : Fin 3 → ℕ) : Mat4R :=
  Matrix.of fun i j =>
    if (i : ℕ) < 3 ∧ (j : ℕ) = 3 then
      O.mulVec (centerVec shape) i - (plumb0 O).mulVec (centerVec shape) i
    else plumb0 O i j

/-- `_afni_warpdrive(oblique, shape, forward, ras)`; `np.linalg.inv` is
modelled by the Mathlib nonsingular inverse (the source raises
`LinAlgError` on singular input). -/
def _afni_warpdrive (oblique : Mat4R) (shape : Fin 3 → ℕ)
    (forward ras : Bool) : Mat4R :=
  let R0 := plumbAff oblique shape * oblique⁻¹
  let R := if ras then R0 else LPSR * R0 * LPSR
  if forward then R else R⁻¹

end RealGeometry

def wM0 : Mat4 :=
  Matrix.of ![![1, 2, 3, 4], ![5, 6, 7, 8], ![9, 10, 11, 12], ![0, 0, 0, 1]]

def wM1 : Mat4 :=
  Matrix.of ![![0, -1, 0, 2], ![1, 0, 0, -3], ![0, 0, 1, 7], ![0, 0, 0, 1]]

def wImgOK : NiftiImage :=
  ⟨⟨[2, 2, 1, 1, 3], [1, 2, 3, 4, 5, 6, 7, 8, 9, 10, 11, 12]⟩, wM0,
    String.toList "good.nii"⟩

def wImgBad : NiftiImage :=
  ⟨⟨[2, 2, 2], [1, 2, 3, 4, 5, 6, 7, 8]⟩, wM0, String.toList "bad.nii"⟩

def wBadMsg : List Char :=
  String.toList "Displacements field \"bad.nii\" does not come from AFNI."

def wLine12 : List Char := String.toList "1 2 3 4 5 6 7 8 9 10 11 12"

def wLine3 : List Char := String.toList "1 2 3"

def wLine11h : List Char := String.toList "1 2 3 4 5 6 7 8 9 10 11 #"

def wLine12h : List Char := String.toList "1 2 3 4 5 6 7 8 9 10 11 12 # c"

def wMulti : List Char :=
  String.toList "1 2 3 4 5 6 7 8 9 10 11 12\n90 91 92 93 94 95 96 97 98 99 100 101"

def wLine99 : List Char :=
  String.toList "90 91 92 93 94 95 96 97 98 99 100 101"

/-- Does this result carry a `TransformFileError`? -/
def errTFE {χ : Type} : Except PyErr χ → Bool
  | .error (.transformFileError _) => true
  | _ => false

def wT5 : List Char :=
  String.toList "3dvolreg matrices\n1 2 3 4 5 6 7 8 9 10 11 12"

instance {ε α : Type} [DecidableEq ε] [DecidableEq α] : DecidableEq (Except ε α) :=
  fun x y =>
    match x, y with
    | .error a, .error b =>
      if h : a = b then .isTrue (by rw [h]) else .isFalse (by simp [h])
    | .ok a, .ok b =>
      if h : a = b then .isTrue (by rw [h]) else .isFalse (by simp [h])
    | .error _, .ok _ => .isFalse (by simp)
    | .ok _, .error _ => .isFalse (by simp)

def wLine0 : List Char := String.toList "0 0 0 0 0 0 0 0 0 0 0 0"

def wX0 : AFNILinearTransformArray :=
  ⟨[⟨buildParams ((pyTokens wLine0).map tokVal)⟩]⟩

def wT7 : List Char := String.toList "0.1234567 0 0 0 0 0 0 0 0 0 0 0"

def wX7 : AFNILinearTransformArray :=
  ⟨[⟨buildParams ((pyTokens wT7).map tokVal)⟩]⟩

def wO8 : Mat4R := Matrix.of ![![2,3,6,0], ![3,-6,2,0], ![6,2,-3,0], ![0,0,0,1]]

def wS8 : Fin 3 → ℕ := fun _ => 0

noncomputable def wO8inv : Mat4R := Matrix.of
  ![![2/49,3/49,6/49,0], ![3/49,-6/49,2/49,0], ![6/49,2/49,-3/49,0], ![0,0,0,1]]

noncomputable def wP8 : Mat4R := Matrix.of ![![0,0,7,0], ![0,-7,0,0], ![7,0,0,0], ![0,0,0,1]]

noncomputable def wP8inv : Mat4R := Matrix.of
  ![![0,0,1/7,0], ![0,-1/7,0,0], ![1/7,0,0,0], ![0,0,0,1]]

def cO8 : Mat4R := Matrix.of ![![10,10,6,0], ![9,-9,2,0], ![0,0,-3,0], ![0,0,0,1]]

noncomputable def cO8inv : Mat4R := Matrix.of
  ![![((1 : ℝ)/20), ((1 : ℝ)/18), ((37 : ℝ)/270), (0 : ℝ)], ![((1 : ℝ)/20), ((-1 : ℝ)/18), ((17 : ℝ)/270), (0 : ℝ)], ![(0 : ℝ), (0 : ℝ), ((-1 : ℝ)/3), (0 : ℝ)], ![(0 : ℝ), (0 : ℝ), (0 : ℝ), (1 : ℝ)]]

/-! ## Theorems -/

/-! ### Lemmas about the string primitives -/

theorem splitP_ne_nil (p : Char → Bool) (l : List Char) : splitP p l ≠ [] := by
  cases l with
  | nil => simp [splitP]
  | cons c t =>
    simp only [splitP]
    split
    · simp
    · match h : splitP p t with
      | [] => simp
      | h' :: r => simp

theorem splitP_sepFree {p : Char → Bool} {l : List Char}
    (h : ∀ c ∈ l, ¬ p c) : splitP p l = [l] := by
  induction l with
  | nil => rfl
  | cons c t ih =>
    have hc : ¬ p c := h c (List.mem_cons_self c t)
    have ht : splitP p t = [t] := ih fun d hd => h d (List.mem_cons_of_mem c hd)
    simp [splitP, hc, ht]

theorem splitP_append {p : Char → Bool} {a : List Char} {s : Char}
    (ha : ∀ c ∈ a, ¬ p c) (hs : p s) (b : List Char) :
    splitP p (a ++ s :: b) = a :: splitP p b := by
  induction a with
  | nil => simp [splitP, hs]
  | cons c t ih =>
    have hc : ¬ p c := ha c (List.mem_cons_self c t)
    have ht := ih fun d hd => ha d (List.mem_cons_of_mem c hd)
    simp only [List.cons_append, splitP, hc, if_neg, ht]
    simp [hc, ht]

/-- Every chunk produced by `splitP` is free of separator characters. -/
theorem splitP_mem_sepFree {p : Char → Bool} {l : List Char} :
    ∀ part ∈ splitP p l, ∀ c ∈ part, ¬ p c := by
  induction l with
  | nil =>
    intro part hp
    simp [splitP] at hp
    subst hp; simp
  | cons c t ih =>
    intro part hp
    simp only [splitP] at hp
    by_cases hc : p c
    · rw [if_pos hc] at hp
      rcases List.mem_cons.mp hp with h | h
      · subst h; simp
      · exact ih part h
    · rw [if_neg hc] at hp
      match hsp : splitP p t with
      | [] => exact absurd hsp (splitP_ne_nil p t)
      | h :: r =>
        rw [hsp] at hp
        rcases List.mem_cons.mp hp with he | he
        · subst he
          intro d hd
          rcases List.mem_cons.mp hd with rfl | hd
          · exact hc
          · exact ih h (hsp ▸ List.mem_cons_self h r) d hd
        · exact ih part (hsp ▸ List.mem_cons_of_mem h he)

theorem pyStrip_sepFree_of {l : List Char} (h : ∀ c ∈ l, ¬ pyIsSpace c = true) :
    pyStrip l = l := by
  unfold pyStrip
  have h1 : l.dropWhile pyIsSpace = l :=
    List.dropWhile_eq_self_iff.mpr fun hl => h _ (List.get_mem l 0 hl)
  rw [h1]
  have h2 : l.reverse.dropWhile pyIsSpace = l.reverse :=
    List.dropWhile_eq_self_iff.mpr fun hl =>
      h _ (List.mem_reverse.mp (List.get_mem l.reverse 0 hl))
  rw [h2, List.reverse_reverse]

theorem pyStrip_eq_rdropWhile (l : List Char) :
    pyStrip l = List.rdropWhile pyIsSpace (List.dropWhile pyIsSpace l) := rfl

/-- A list whose first and last characters are not whitespace is unchanged
by `strip()`. -/
theorem pyStrip_of_ends {l : List Char} (hne : l ≠ [])
    (hh : ¬ pyIsSpace (l.head hne) = true)
    (hl : ¬ pyIsSpace (l.getLast hne) = true) : pyStrip l = l := by
  rw [pyStrip_eq_rdropWhile]
  have h1 : List.dropWhile pyIsSpace l = l := by
    rw [List.dropWhile_eq_self_iff]
    intro hpos
    rw [List.get_eq_getElem, ← List.head_eq_getElem_zero hne]
    exact hh
  rw [h1, List.rdropWhile_eq_self_iff]
  intro hl2
  exact hl

theorem pyStrip_head_not (l : List Char) (hne : pyStrip l ≠ []) :
    ¬ pyIsSpace ((pyStrip l).head hne) = true := by
  have hdne : List.dropWhile pyIsSpace l ≠ [] := by
    intro h0
    apply hne
    rw [pyStrip_eq_rdropWhile, h0, List.rdropWhile_nil]
  have hpre := List.rdropWhile_prefix pyIsSpace (List.dropWhile pyIsSpace l)
  have hlen : 0 < (pyStrip l).length := List.length_pos.mpr hne
  have e1 : (pyStrip l).head hne = (List.dropWhile pyIsSpace l).head hdne := by
    rw [List.head_eq_getElem_zero hne, List.head_eq_getElem_zero hdne]
    exact List.IsPrefix.getElem hpre hlen
  rw [e1]
  simp [List.head_dropWhile_not pyIsSpace l hdne]

theorem pyStrip_last_not (l : List Char) (hne : pyStrip l ≠ []) :
    ¬ pyIsSpace ((pyStrip l).getLast hne) = true :=
  List.rdropWhile_last_not pyIsSpace (List.dropWhile pyIsSpace l) hne

theorem pyStrip_idem (l : List Char) : pyStrip (pyStrip l) = pyStrip l := by
  rcases hs : pyStrip l with _ | ⟨c, t⟩
  · rfl
  · rw [← hs]
    have hne : pyStrip l ≠ [] := by rw [hs]; exact List.cons_ne_nil c t
    exact pyStrip_of_ends hne (pyStrip_head_not l hne) (pyStrip_last_not l hne)

theorem pyStripInfix (l : List Char) : pyStrip l <:+: l := by
  obtain ⟨a, ha⟩ := List.rdropWhile_prefix pyIsSpace (List.dropWhile pyIsSpace l)
  obtain ⟨b, hb⟩ := List.dropWhile_suffix (l := l) pyIsSpace
  refine ⟨b, a, ?_⟩
  rw [pyStrip_eq_rdropWhile, List.append_assoc, ha, hb]

theorem splitP_joinSep {p : Char → Bool} {sep : Char} (hsep : p sep)
    {L : List (List Char)} (hL : L ≠ []) (h : ∀ l ∈ L, ∀ c ∈ l, ¬ p c) :
    splitP p (joinSep sep L) = L := by
  induction L with
  | nil => exact absurd rfl hL
  | cons x xs ih =>
    cases xs with
    | nil => exact splitP_sepFree (h x (List.mem_cons_self x []))
    | cons y ys =>
      show splitP p (x ++ sep :: joinSep sep (y :: ys)) = _
      rw [splitP_append (h x (List.mem_cons_self x _)) hsep]
      rw [ih (List.cons_ne_nil y ys) fun l hl => h l (List.mem_cons_of_mem x hl)]

theorem msdVal_foldl (ds : List ℕ) (a : ℕ) :
    ds.foldl (fun a d => 10 * a + d) a = a * 10 ^ ds.length + msdVal ds := by
  induction ds generalizing a with
  | nil => simp [msdVal]
  | cons d t ih =>
    show List.foldl _ (10 * a + d) t = _
    rw [ih (10 * a + d)]
    show _ = a * 10 ^ (t.length + 1) + List.foldl _ (10 * 0 + d) t
    rw [ih (10 * 0 + d)]
    ring

theorem msdVal_append (a b : List ℕ) :
    msdVal (a ++ b) = msdVal a * 10 ^ b.length + msdVal b := by
  unfold msdVal
  rw [List.foldl_append]
  exact msdVal_foldl b (List.foldl _ 0 a)

theorem msdVal_replicate_zero (k : ℕ) : msdVal (List.replicate k 0) = 0 := by
  induction k with
  | zero => rfl
  | succ n ih =>
    have : msdVal (List.replicate (n+1) 0) = msdVal (List.replicate n 0 ++ [0]) := by
      rw [← List.replicate_succ' ]
    rw [this, msdVal_append, ih]
    rfl

theorem msdVal_append_replicate_zero (a : List ℕ) (k : ℕ) :
    msdVal (a ++ List.replicate k 0) = msdVal a * 10 ^ k := by
  rw [msdVal_append, msdVal_replicate_zero, List.length_replicate, Nat.add_zero]

theorem msdVal_replicate_zero_append (a : List ℕ) (k : ℕ) :
    msdVal (List.replicate k 0 ++ a) = msdVal a := by
  rw [msdVal_append, msdVal_replicate_zero, Nat.zero_mul, Nat.zero_add]

theorem msdVal_natDigits (n : ℕ) : msdVal (natDigits n) = n := by
  unfold msdVal natDigits
  rw [List.foldl_reverse]
  have : ∀ L : List ℕ, L.foldr (fun d a => 10 * a + d) 0 = Nat.ofDigits 10 L := by
    intro L
    induction L with
    | nil => rfl
    | cons d t ih =>
      rw [List.foldr_cons, ih, Nat.ofDigits_cons]
      ring
  rw [this]
  exact_mod_cast Nat.ofDigits_digits 10 n

/-- Decomposition of a digit list into its zero-stripped part and trailing
zeros. -/
theorem stripZeros_spec (ds : List ℕ) :
    ∃ k, ds = stripZeros ds ++ List.replicate k 0 := by
  refine ⟨(ds.reverse.takeWhile (fun d => decide (d = 0))).length, ?_⟩
  have hrep : ds.reverse.takeWhile (fun d => decide (d = 0)) =
      List.replicate (ds.reverse.takeWhile (fun d => decide (d = 0))).length 0 := by
    apply List.eq_replicate_of_mem
    intro b hb
    have := List.mem_takeWhile_imp hb
    simpa using this
  have hsplit := List.takeWhile_append_dropWhile
    (p := fun d => decide (d = 0)) (l := ds.reverse)
  conv_lhs => rw [← List.reverse_reverse ds, ← hsplit]
  rw [List.reverse_append]
  conv_lhs => rw [hrep, List.reverse_replicate]
  simp [stripZeros]

theorem digitChar_toNat {d : ℕ} (h : d < 10) : (digitChar d).toNat = 48 + d := by
  interval_cases d <;> rfl

theorem isDigitC_digitChar {d : ℕ} (h : d < 10) : isDigitC (digitChar d) = true := by
  interval_cases d <;> rfl

theorem digitsVal_map_digitChar {ds : List ℕ} (h : ∀ d ∈ ds, d < 10) :
    digitsVal (ds.map digitChar) = msdVal ds := by
  unfold digitsVal msdVal
  have key : ∀ (t : List ℕ), (∀ d ∈ t, d < 10) → ∀ a : ℕ,
      (t.map digitChar).foldl (fun a c => 10 * a + (c.toNat - 48)) a =
      t.foldl (fun a d => 10 * a + d) a := by
    intro t
    induction t with
    | nil => intro _ a; rfl
    | cons d r ih =>
      intro ht a
      have hd : d < 10 := ht d (List.mem_cons_self d r)
      show List.foldl _ (10 * a + ((digitChar d).toNat - 48)) _ = _
      rw [digitChar_toNat hd]
      simp only [Nat.add_sub_cancel_left]
      exact ih (fun x hx => ht x (List.mem_cons_of_mem d hx)) (10 * a + d)
  exact key ds h 0

theorem all_isDigitC_map_digitChar {ds : List ℕ} (h : ∀ d ∈ ds, d < 10) :
    (ds.map digitChar).all isDigitC = true := by
  rw [List.all_eq_true]
  intro c hc
  obtain ⟨d, hd, rfl⟩ := List.mem_map.mp hc
  exact isDigitC_digitChar (h d hd)

theorem natDigits_lt {n : ℕ} : ∀ d ∈ natDigits n, d < 10 := by
  intro d hd
  exact Nat.digits_lt_base (by norm_num) (List.mem_reverse.mp hd)

theorem parseUInt?_renderNat (n : ℕ) : parseUInt? (renderNat n) = some n := by
  unfold renderNat
  by_cases h0 : n = 0
  · subst h0; rfl
  · rw [if_neg h0]
    unfold parseUInt?
    rw [if_pos]
    · rw [digitsVal_map_digitChar natDigits_lt, msdVal_natDigits]
    · constructor
      · simp only [ne_eq, List.map_eq_nil_iff]
        unfold natDigits
        simp [Nat.digits_eq_nil_iff_eq_zero, h0]
      · exact all_isDigitC_map_digitChar natDigits_lt

/-- Leading-zero-padded digit chunks parse to the same value. -/
theorem digitsVal_cons_zero (l : List Char) : digitsVal ('0' :: l) = digitsVal l := by
  unfold digitsVal
  rfl

theorem isDigitC_not_space {c : Char} (h : isDigitC c = true) :
    pyIsSpace c = false := by
  cases hsp : pyIsSpace c with
  | false => rfl
  | true =>
    exfalso
    unfold pyIsSpace at hsp
    simp only [Bool.or_eq_true, decide_eq_true_eq] at hsp
    rcases hsp with ((((rfl | rfl) | rfl) | rfl) | rfl) | rfl <;> revert h <;> decide

theorem isDigitC_ne_of {c d : Char} (h : isDigitC c = true)
    (hd : isDigitC d = false) : c ≠ d := by
  intro he
  rw [he, hd] at h
  exact Bool.false_ne_true h

theorem isDigitC_char_facts {c : Char} (h : isDigitC c = true) :
    c ≠ '.' ∧ c ≠ 'e' ∧ c ≠ '-' ∧ c ≠ '+' ∧ c ≠ '#' ∧ c ≠ '\n' ∧ pyIsSpace c = false :=
  ⟨isDigitC_ne_of h (by decide), isDigitC_ne_of h (by decide),
   isDigitC_ne_of h (by decide), isDigitC_ne_of h (by decide),
   isDigitC_ne_of h (by decide), isDigitC_ne_of h (by decide),
   isDigitC_not_space h⟩

theorem goodChar_facts {c : Char} (h : goodChar c = true) :
    c ≠ '#' ∧ c ≠ '\n' ∧ pyIsSpace c = false := by
  unfold goodChar at h
  simp only [Bool.or_eq_true, decide_eq_true_eq] at h
  rcases h with ((((hd | rfl) | rfl) | rfl) | rfl)
  · obtain ⟨_, _, _, _, h1, h2, h3⟩ := isDigitC_char_facts hd
    exact ⟨h1, h2, h3⟩
  all_goals exact ⟨by decide, by decide, by decide⟩

theorem parseFloat?_not_sign {c : Char} {t : List Char}
    (h1 : c ≠ '+') (h2 : c ≠ '-') :
    parseFloat? (c :: t) = parseUnsigned? (c :: t) := by
  unfold parseFloat?
  split
  · next heq => exact absurd (List.head_eq_of_cons_eq heq.symm).symm h1
  · next heq => exact absurd (List.head_eq_of_cons_eq heq.symm).symm h2
  · rfl

theorem rhe_bounds (x : ℚ) : ⌊x⌋ ≤ rhe x ∧ rhe x ≤ ⌊x⌋ + 1 := by
  unfold rhe
  split_ifs <;> omega

/-- For nonzero `v`, `gparts` produces a mantissa with exactly six digits
and a sign matching `v`. -/
theorem gparts_bounds {v : ℚ} (hv : v ≠ 0) :
    10 ^ 5 ≤ (gparts v).1.natAbs ∧ (gparts v).1.natAbs < 10 ^ 6 ∧
      ((gparts v).1 < 0 ↔ v < 0) := by
  have habs : (0 : ℚ) < |v| := abs_pos.mpr hv
  have hlow : (10 : ℚ) ^ decExp v ≤ |v| :=
    Int.zpow_log_le_self (by norm_num) habs
  have hhigh : |v| < (10 : ℚ) ^ (decExp v + 1) :=
    Int.lt_zpow_succ_log_self (by norm_num) |v|
  set e := decExp v with he
  set x := |v| * (10 : ℚ) ^ ((5 : ℤ) - e) with hx
  have hpow : (0 : ℚ) < (10 : ℚ) ^ ((5 : ℤ) - e) := zpow_pos (by norm_num) _
  have hx1 : ((10 : ℤ) ^ (5 : ℕ) : ℚ) ≤ x := by
    calc ((10 : ℤ) ^ (5 : ℕ) : ℚ) = (10 : ℚ) ^ (e + ((5 : ℤ) - e)) := by
          rw [show e + ((5 : ℤ) - e) = ((5 : ℕ) : ℤ) by ring, zpow_natCast]
          push_cast
          ring
      _ = (10 : ℚ) ^ e * (10 : ℚ) ^ ((5 : ℤ) - e) := by
          rw [← zpow_add₀ (by norm_num : (10 : ℚ) ≠ 0)]
      _ ≤ x := mul_le_mul_of_nonneg_right hlow (le_of_lt hpow)
  have hx2 : x < ((10 : ℤ) ^ (6 : ℕ) : ℚ) := by
    calc x < (10 : ℚ) ^ (e + 1) * (10 : ℚ) ^ ((5 : ℤ) - e) :=
          mul_lt_mul_of_pos_right hhigh hpow
      _ = (10 : ℚ) ^ ((e + 1) + ((5 : ℤ) - e)) := by
          rw [← zpow_add₀ (by norm_num : (10 : ℚ) ≠ 0)]
      _ = ((10 : ℤ) ^ (6 : ℕ) : ℚ) := by
          rw [show (e + 1) + ((5 : ℤ) - e) = ((6 : ℕ) : ℤ) by ring, zpow_natCast]
          push_cast
          ring
  have hm1 : (10 : ℤ) ^ 5 ≤ ⌊x⌋ := Int.le_floor.mpr hx1
  have hm2 : ⌊x⌋ < (10 : ℤ) ^ 6 := Int.floor_lt.mpr hx2
  obtain ⟨hr1, hr2⟩ := rhe_bounds x
  have key : ∀ m' : ℤ, 10 ^ 5 ≤ m' → m' < 10 ^ 6 →
      10 ^ 5 ≤ (if v < 0 then -m' else m').natAbs ∧
        (if v < 0 then -m' else m').natAbs < 10 ^ 6 ∧
        ((if v < 0 then -m' else m') < 0 ↔ v < 0) := by
    intro m' hlo hhi
    split_ifs with hneg
    · refine ⟨by omega, by omega, by constructor <;> intro <;> first | omega | exact hneg⟩
    · refine ⟨by omega, by omega, by constructor <;> intro h' <;> [omega; exact absurd h' hneg]⟩
  show 10 ^ 5 ≤ (gparts v).1.natAbs ∧ (gparts v).1.natAbs < 10 ^ 6 ∧
      ((gparts v).1 < 0 ↔ v < 0)
  have hg : gparts v =
      (if v < 0 then -(if rhe x = 10 ^ 6 then ((10 : ℤ) ^ 5, e + 1) else (rhe x, e)).1
       else (if rhe x = 10 ^ 6 then ((10 : ℤ) ^ 5, e + 1) else (rhe x, e)).1,
       (if rhe x = 10 ^ 6 then ((10 : ℤ) ^ 5, e + 1) else (rhe x, e)).2) := by
    rw [gparts, ← he, ← hx]
  rw [hg]
  by_cases hnorm : rhe x = 10 ^ 6
  · rw [if_pos hnorm]
    exact key _ (by norm_num) (by norm_num)
  · rw [if_neg hnorm]
    exact key _ (by omega) (by omega)

theorem renderNat_ne_nil (n : ℕ) : renderNat n ≠ [] := by
  unfold renderNat
  split
  · simp
  · simp only [ne_eq, List.map_eq_nil_iff]
    unfold natDigits
    simp_all [Nat.digits_eq_nil_iff_eq_zero]

theorem renderNat_all_digits (n : ℕ) : (renderNat n).all isDigitC = true := by
  unfold renderNat
  split
  · decide
  · exact all_isDigitC_map_digitChar natDigits_lt

theorem digitsVal_renderNat (n : ℕ) : digitsVal (renderNat n) = n := by
  unfold renderNat
  split
  · simp_all [digitsVal]
  · rw [digitsVal_map_digitChar natDigits_lt, msdVal_natDigits]

theorem parseUInt?_padded (n : ℕ) : parseUInt? ('0' :: renderNat n) = some n := by
  unfold parseUInt?
  rw [if_pos]
  · rw [digitsVal_cons_zero, digitsVal_renderNat]
  · refine ⟨by simp, ?_⟩
    rw [List.all_cons]
    simp only [Bool.and_eq_true]
    exact ⟨by decide, renderNat_all_digits n⟩

theorem natDigits_len_six {m : ℕ} (h1 : 10 ^ 5 ≤ m) (h2 : m < 10 ^ 6) :
    (natDigits m).length = 6 := by
  unfold natDigits
  rw [List.length_reverse, Nat.digits_len 10 m (by norm_num) (by omega),
    Nat.log_eq_of_pow_le_of_lt_pow h1 h2]

/-- Value of the zero-stripped fraction equals the value of the raw
fraction. -/
theorem stripZeros_frac_val (fp : List ℕ) :
    ((msdVal (stripZeros fp) : ℚ)) / 10 ^ (stripZeros fp).length =
      (msdVal fp : ℚ) / 10 ^ fp.length := by
  obtain ⟨k, hk⟩ := stripZeros_spec fp
  conv_rhs => rw [hk]
  rw [msdVal_append_replicate_zero, List.length_append, List.length_replicate]
  push_cast
  rw [pow_add]
  rcases eq_or_ne ((10 : ℚ) ^ (stripZeros fp).length) 0 with h0 | h0
  · norm_num at h0
  · field_simp
    ring

theorem mem_map_digitChar_not_dot {ds : List ℕ} (h : ∀ d ∈ ds, d < 10) :
    ∀ c ∈ ds.map digitChar, ¬ ((fun c => decide (c = '.')) c = true) := by
  intro c hc
  obtain ⟨d, hd, rfl⟩ := List.mem_map.mp hc
  simp only [decide_eq_true_eq]
  exact (isDigitC_char_facts (isDigitC_digitChar (h d hd))).1

theorem mem_map_digitChar_not_e {ds : List ℕ} (h : ∀ d ∈ ds, d < 10) :
    ∀ c ∈ ds.map digitChar, ¬ ((fun c => decide (c = 'e')) c = true) := by
  intro c hc
  obtain ⟨d, hd, rfl⟩ := List.mem_map.mp hc
  simp only [decide_eq_true_eq]
  exact (isDigitC_char_facts (isDigitC_digitChar (h d hd))).2.1

theorem parseMantissa?_nodot {a : List ℕ} (hne : a ≠ []) (h : ∀ d ∈ a, d < 10) :
    parseMantissa? (a.map digitChar) = some (msdVal a : ℚ) := by
  unfold parseMantissa?
  rw [splitP_sepFree (mem_map_digitChar_not_dot h)]
  show (if _ ∧ _ then _ else _) = _
  rw [if_pos ⟨by simpa using hne, all_isDigitC_map_digitChar h⟩]
  rw [digitsVal_map_digitChar h]

theorem parseMantissa?_dot {a b : List ℕ} (hne : a ≠ []) (ha : ∀ d ∈ a, d < 10)
    (hb : ∀ d ∈ b, d < 10) :
    parseMantissa? (a.map digitChar ++ '.' :: b.map digitChar) =
      some ((msdVal a : ℚ) + (msdVal b : ℚ) / 10 ^ b.length) := by
  unfold parseMantissa?
  rw [splitP_append (mem_map_digitChar_not_dot ha) (by simp)]
  rw [splitP_sepFree (mem_map_digitChar_not_dot hb)]
  show (if _ ∧ _ ∧ _ then _ else _) = _
  rw [if_pos ⟨Or.inl (by simpa using hne),
    all_isDigitC_map_digitChar ha, all_isDigitC_map_digitChar hb⟩]
  rw [digitsVal_map_digitChar ha, digitsVal_map_digitChar hb, List.length_map]

/-- Parse of an integer-part/fraction-part layout with zero-stripped
fraction: the master mantissa lemma. -/
theorem parseMantissa?_master (ip fp : List ℕ) (hip : ip ≠ [])
    (hipd : ∀ d ∈ ip, d < 10) (hfpd : ∀ d ∈ fp, d < 10) :
    parseMantissa? (ip.map digitChar ++
        (if stripZeros fp = [] then []
         else '.' :: (stripZeros fp).map digitChar)) =
      some ((msdVal ip : ℚ) + (msdVal fp : ℚ) / 10 ^ fp.length) := by
  obtain ⟨k, hk⟩ := stripZeros_spec fp
  by_cases hz : stripZeros fp = []
  · rw [if_pos hz, List.append_nil, parseMantissa?_nodot hip hipd]
    have : msdVal fp = 0 := by
      rw [hk, hz, List.nil_append, msdVal_replicate_zero]
    rw [this]
    norm_num
  · rw [if_neg hz]
    have hszd : ∀ d ∈ stripZeros fp, d < 10 := by
      intro d hd
      apply hfpd
      rw [hk]
      exact List.mem_append_left _ hd
    rw [parseMantissa?_dot hip hipd hszd, stripZeros_frac_val]

theorem parseUnsigned?_no_e {l : List Char}
    (h : ∀ c ∈ l, ¬ ((fun c => decide (c = 'e')) c = true)) :
    parseUnsigned? l = parseMantissa? l := by
  unfold parseUnsigned?
  rw [splitP_sepFree h]
  rfl

theorem master_no_e {ip fp : List ℕ} (hipd : ∀ d ∈ ip, d < 10)
    (hfpd : ∀ d ∈ fp, d < 10) :
    ∀ c ∈ (ip.map digitChar ++
        (if stripZeros fp = [] then []
         else '.' :: (stripZeros fp).map digitChar)),
      ¬ ((fun c => decide (c = 'e')) c = true) := by
  have hszd : ∀ d ∈ stripZeros fp, d < 10 := by
    obtain ⟨k, hk⟩ := stripZeros_spec fp
    intro d hd
    exact hfpd d (hk ▸ List.mem_append_left _ hd)
  intro c hc
  rcases List.mem_append.mp hc with h | h
  · exact mem_map_digitChar_not_e hipd c h
  · split at h
    · simp at h
    · rcases List.mem_cons.mp h with rfl | h
      · decide
      · exact mem_map_digitChar_not_e hszd c h

theorem parseUnsigned?_renderA {m : ℕ} {e : ℤ} (h1 : 10 ^ 5 ≤ m)
    (h2 : m < 10 ^ 6) (he0 : 0 ≤ e) (he6 : e < 6) :
    parseUnsigned? (renderParts false m e) =
      some ((m : ℚ) * (10 : ℚ) ^ (e - 5)) := by
  have hds : ∀ d ∈ natDigits m, d < 10 := natDigits_lt
  have hlen : (natDigits m).length = 6 := natDigits_len_six h1 h2
  have hshape : renderParts false m e =
      ((natDigits m).take (e.toNat + 1)).map digitChar ++
        (if stripZeros ((natDigits m).drop (e.toNat + 1)) = [] then []
         else '.' :: (stripZeros ((natDigits m).drop (e.toNat + 1))).map digitChar) := by
    unfold renderParts
    rw [if_pos ⟨by omega, he6⟩, if_pos he0]
    simp
  rw [hshape]
  set ip := (natDigits m).take (e.toNat + 1) with hip_def
  set fp := (natDigits m).drop (e.toNat + 1) with hfp_def
  have hipd : ∀ d ∈ ip, d < 10 := fun d hd => hds d (List.take_subset _ _ hd)
  have hfpd : ∀ d ∈ fp, d < 10 := fun d hd => hds d (List.drop_subset _ _ hd)
  have hipne : ip ≠ [] := by
    rw [hip_def, ne_eq, List.take_eq_nil_iff]
    push_neg
    constructor
    · omega
    · intro h0
      rw [h0] at hlen
      simp at hlen
  rw [parseUnsigned?_no_e (master_no_e hipd hfpd),
    parseMantissa?_master ip fp hipne hipd hfpd]
  congr 1
  have hm : msdVal ip * 10 ^ fp.length + msdVal fp = m := by
    rw [← msdVal_append, hip_def, hfp_def, List.take_append_drop, msdVal_natDigits]
  have hfplen : (fp.length : ℤ) = 5 - e := by
    have : fp.length = 6 - (e.toNat + 1) := by
      rw [hfp_def, List.length_drop, hlen]
    omega
  have h10 : ((10 : ℚ) ^ fp.length) ≠ 0 := by positivity
  rw [show e - 5 = -((fp.length : ℕ) : ℤ) by omega, zpow_neg, zpow_natCast]
  rw [← hm]
  push_cast
  field_simp
  try ring

theorem dot_no_e {a b : List ℕ} (ha : ∀ d ∈ a, d < 10) (hb : ∀ d ∈ b, d < 10) :
    ∀ c ∈ (a.map digitChar ++ '.' :: b.map digitChar),
      ¬ ((fun c => decide (c = 'e')) c = true) := by
  intro c hc
  rcases List.mem_append.mp hc with h | h
  · exact mem_map_digitChar_not_e ha c h
  · rcases List.mem_cons.mp h with rfl | h
    · decide
    · exact mem_map_digitChar_not_e hb c h

theorem parseUnsigned?_renderB {m : ℕ} {e : ℤ} (h1 : 10 ^ 5 ≤ m)
    (h2 : m < 10 ^ 6) (he4 : -4 ≤ e) (he0 : e < 0) :
    parseUnsigned? (renderParts false m e) =
      some ((m : ℚ) * (10 : ℚ) ^ (e - 5)) := by
  have hds : ∀ d ∈ natDigits m, d < 10 := natDigits_lt
  have hlen : (natDigits m).length = 6 := natDigits_len_six h1 h2
  obtain ⟨t, ht⟩ := stripZeros_spec (natDigits m)
  set sz := stripZeros (natDigits m) with hsz
  set k := (-(e + 1)).toNat with hkdef
  have hk : (k : ℤ) = -e - 1 := by
    rw [hkdef]
    omega
  have hszd : ∀ d ∈ sz, d < 10 := fun d hd =>
    hds d (ht ▸ List.mem_append_left _ hd)
  have hbd : ∀ d ∈ List.replicate k 0 ++ sz, d < 10 := by
    intro d hd
    rcases List.mem_append.mp hd with h | h
    · rw [List.eq_of_mem_replicate h]
      norm_num
    · exact hszd d h
  have hshape : renderParts false m e =
      ([0] : List ℕ).map digitChar ++
        '.' :: (List.replicate k 0 ++ sz).map digitChar := by
    unfold renderParts
    rw [if_pos ⟨he4, by omega⟩, if_neg (by omega)]
    simp only [List.map_append, List.map_replicate, ← hsz, ← hkdef]
    show [] ++ _ = _
    rw [List.nil_append]
    rfl
  rw [hshape,
    parseUnsigned?_no_e (dot_no_e (by norm_num) hbd),
    parseMantissa?_dot (by simp) (by norm_num) hbd]
  congr 1
  rw [msdVal_replicate_zero_append]
  have h00 : ((msdVal [0] : ℕ) : ℚ) = 0 := by norm_num [msdVal]
  rw [h00, zero_add, List.length_append, List.length_replicate]
  have hm : msdVal sz * 10 ^ t = m := by
    conv_rhs => rw [← msdVal_natDigits m, ht, msdVal_append_replicate_zero]
  have hlensz : sz.length + t = 6 := by
    have := congrArg List.length ht
    simp only [List.length_append, List.length_replicate] at this
    omega
  have hLt : ((k + sz.length + t : ℕ) : ℤ) = 5 - e := by
    push_cast
    omega
  rw [show e - 5 = -((k + sz.length + t : ℕ) : ℤ) by rw [hLt]; ring]
  rw [zpow_neg, zpow_natCast, ← hm]
  push_cast
  rw [pow_add, pow_add]
  have h10a : ((10 : ℚ) ^ (k + sz.length)) ≠ 0 := by positivity
  have h10b : ((10 : ℚ) ^ t) ≠ 0 := by positivity
  field_simp
  try ring

theorem parseExp?_of_renderSci (e : ℤ) :
    parseExp? ((if e < 0 then ['-'] else ['+']) ++
        (if e.natAbs < 10 then '0' :: renderNat e.natAbs else renderNat e.natAbs)) =
      some e := by
  by_cases hneg : e < 0
  · rw [if_pos hneg, List.singleton_append]
    split_ifs with hlt
    · simp only [parseExp?, parseUInt?_padded, Option.map_some']
      congr 1
      simp only [Int.ofNat_eq_natCast]
      omega
    · simp only [parseExp?, parseUInt?_renderNat, Option.map_some']
      congr 1
      simp only [Int.ofNat_eq_natCast]
      omega
  · rw [if_neg hneg, List.singleton_append]
    split_ifs with hlt
    · simp only [parseExp?, parseUInt?_padded, Option.map_some']
      congr 1
      simp only [Int.ofNat_eq_natCast]
      omega
    · simp only [parseExp?, parseUInt?_renderNat, Option.map_some']
      congr 1
      simp only [Int.ofNat_eq_natCast]
      omega

theorem parseUnsigned?_renderC {m : ℕ} {e : ℤ} (h1 : 10 ^ 5 ≤ m)
    (h2 : m < 10 ^ 6) (hrange : ¬ (-4 ≤ e ∧ e < 6)) :
    parseUnsigned? (renderParts false m e) =
      some ((m : ℚ) * (10 : ℚ) ^ (e - 5)) := by
  have hds : ∀ d ∈ natDigits m, d < 10 := natDigits_lt
  have hlen : (natDigits m).length = 6 := natDigits_len_six h1 h2
  rcases hds0 : natDigits m with _ | ⟨d1, tail⟩
  · rw [hds0] at hlen
    simp at hlen
  have hd1 : d1 < 10 := hds d1 (hds0 ▸ List.mem_cons_self _ _)
  have htaild : ∀ d ∈ tail, d < 10 := fun d hd =>
    hds d (hds0 ▸ List.mem_cons_of_mem _ hd)
  have htlen : tail.length = 5 := by
    rw [hds0] at hlen
    simpa using hlen
  have hshape : renderParts false m e =
      (([d1] : List ℕ).map digitChar ++
        (if stripZeros tail = [] then []
         else '.' :: (stripZeros tail).map digitChar)) ++
      'e' :: ((if e < 0 then ['-'] else ['+']) ++
        (if e.natAbs < 10 then '0' :: renderNat e.natAbs else renderNat e.natAbs)) := by
    unfold renderParts
    rw [if_neg hrange, hds0]
    simp [List.append_assoc]
  rw [hshape]
  unfold parseUnsigned?
  rw [splitP_append (master_no_e (by simpa using hd1) htaild) (by simp)]
  rw [splitP_sepFree (by
    intro c hc
    simp only [decide_eq_true_eq]
    rcases List.mem_append.mp hc with h | h
    · split_ifs at h <;> simp only [List.mem_singleton] at h <;> subst h <;> decide
    · split_ifs at h
      · rcases List.mem_cons.mp h with rfl | h
        · decide
        · have := List.all_eq_true.mp (renderNat_all_digits e.natAbs) c h
          exact (isDigitC_char_facts this).2.1
      · have := List.all_eq_true.mp (renderNat_all_digits e.natAbs) c h
        exact (isDigitC_char_facts this).2.1)]
  show parseUnsignedAux [_, _] = _
  rw [parseUnsignedAux]
  rw [parseMantissa?_master [d1] tail (by simp) (by simpa using hd1) htaild,
    parseExp?_of_renderSci e]
  show some _ = _
  congr 1
  have hm : d1 * 10 ^ 5 + msdVal tail = m := by
    have : msdVal (natDigits m) = m := msdVal_natDigits m
    rw [hds0] at this
    rw [← this]
    have : msdVal (d1 :: tail) = msdVal ([d1] ++ tail) := rfl
    rw [this, msdVal_append, htlen]
    simp [msdVal]
  have hfive : msdVal [d1] = d1 := by simp [msdVal]
  rw [hfive, htlen, show e - 5 = e + (-(5 : ℤ)) by ring,
    zpow_add₀ (by norm_num : (10 : ℚ) ≠ 0), ← hm]
  push_cast
  have h10 : ((10 : ℚ) ^ (5 : ℕ)) ≠ 0 := by positivity
  rw [show ((-5 : ℤ)) = -((5 : ℕ) : ℤ) by norm_num, zpow_neg, zpow_natCast]
  field_simp
  try ring
  try tauto

theorem parseUnsigned?_renderParts {m : ℕ} {e : ℤ} (h1 : 10 ^ 5 ≤ m)
    (h2 : m < 10 ^ 6) :
    parseUnsigned? (renderParts false m e) =
      some ((m : ℚ) * (10 : ℚ) ^ (e - 5)) := by
  by_cases hA : -4 ≤ e ∧ e < 6
  · by_cases hB : 0 ≤ e
    · exact parseUnsigned?_renderA h1 h2 hB hA.2
    · exact parseUnsigned?_renderB h1 h2 hA.1 (by omega)
  · exact parseUnsigned?_renderC h1 h2 hA

theorem renderParts_neg_cons (m : ℕ) (e : ℤ) :
    renderParts true m e = '-' :: renderParts false m e := by
  unfold renderParts
  by_cases hA : -4 ≤ e ∧ e < 6
  · by_cases hB : 0 ≤ e
    · simp [hA, hB]
    · simp [hA, hB]
  · simp [hA]

theorem parseFloat?_of_head_digit {l : List Char} (hne : l ≠ [])
    (hd : isDigitC (l.headD ' ') = true) : parseFloat? l = parseUnsigned? l := by
  cases l with
  | nil => exact absurd rfl hne
  | cons c t =>
    exact parseFloat?_not_sign (isDigitC_char_facts hd).2.2.2.1
      (isDigitC_char_facts hd).2.2.1

theorem renderParts_false_head {m : ℕ} {e : ℤ} (h1 : 10 ^ 5 ≤ m)
    (h2 : m < 10 ^ 6) :
    renderParts false m e ≠ [] ∧
      isDigitC ((renderParts false m e).headD ' ') = true := by
  have hlen : (natDigits m).length = 6 := natDigits_len_six h1 h2
  rcases hds0 : natDigits m with _ | ⟨d1, rest⟩
  · rw [hds0] at hlen
    simp at hlen
  have hd1 : d1 < 10 := natDigits_lt d1 (hds0 ▸ List.mem_cons_self _ _)
  simp only [renderParts, Bool.false_eq_true, if_false, List.nil_append, hds0]
  split_ifs with hA hB hC <;>
    simp [List.take_succ_cons, isDigitC_digitChar hd1,
      show isDigitC '0' = true from by decide]

/-- Parsing the `%g` rendering of any rational recovers exactly its
6-significant-digit rounding. -/
theorem parseFloat?_renderG (v : ℚ) : parseFloat? (renderG v) = some (round6 v) := by
  by_cases hv : v = 0
  · subst hv
    decide
  · obtain ⟨hm1, hm2, hsign⟩ := gparts_bounds hv
    unfold renderG round6
    rw [if_neg hv, if_neg hv]
    by_cases hneg : (gparts v).1 < 0
    · rw [decide_eq_true hneg, renderParts_neg_cons]
      simp only [parseFloat?]
      rw [parseUnsigned?_renderParts hm1 hm2, Option.map_some']
      congr 1
      have hcast : (((gparts v).1.natAbs : ℕ) : ℚ) = -(((gparts v).1 : ℤ) : ℚ) := by
        rw [Int.cast_natAbs, abs_of_neg hneg]
        push_cast
        ring
      rw [hcast]
      ring
    · rw [decide_eq_false hneg]
      obtain ⟨hne, hhd⟩ := renderParts_false_head (e := (gparts v).2) hm1 hm2
      rw [parseFloat?_of_head_digit hne hhd, parseUnsigned?_renderParts hm1 hm2]
      congr 1
      have hcast : (((gparts v).1.natAbs : ℕ) : ℚ) = (((gparts v).1 : ℤ) : ℚ) := by
        rw [Int.cast_natAbs, abs_of_nonneg (not_lt.mp hneg)]
      rw [hcast]

theorem goodChar_map_digitChar {ds : List ℕ} (h : ∀ d ∈ ds, d < 10) :
    ∀ c ∈ ds.map digitChar, goodChar c = true := by
  intro c hc
  obtain ⟨d, hd, rfl⟩ := List.mem_map.mp hc
  unfold goodChar
  rw [isDigitC_digitChar (h d hd)]
  rfl

theorem goodChar_renderNat (n : ℕ) : ∀ c ∈ renderNat n, goodChar c = true := by
  intro c hc
  have := List.all_eq_true.mp (renderNat_all_digits n) c hc
  unfold goodChar
  rw [this]
  rfl

theorem stripZeros_subset (ds : List ℕ) : stripZeros ds ⊆ ds := by
  intro d hd
  obtain ⟨k, hk⟩ := stripZeros_spec ds
  rw [hk]
  exact List.mem_append_left _ hd

theorem goodChar_digitChar {d : ℕ} (h : d < 10) : goodChar (digitChar d) = true := by
  unfold goodChar
  rw [isDigitC_digitChar h]
  rfl

theorem headD_natDigits_lt (m : ℕ) : (natDigits m).headD 0 < 10 := by
  rcases h : natDigits m with _ | ⟨d, t⟩
  · norm_num
  · exact natDigits_lt d (h ▸ List.mem_cons_self _ _)

theorem good_dotpart {X : List ℕ} (hX : ∀ d ∈ X, d < 10) {c : Char}
    (hc : c ∈ (if X = [] then [] else '.' :: X.map digitChar)) :
    goodChar c = true := by
  split at hc
  · simp at hc
  · rcases List.mem_cons.mp hc with rfl | hc
    · decide
    · obtain ⟨d, hd, rfl⟩ := List.mem_map.mp hc
      exact goodChar_digitChar (hX d hd)

theorem good_padpart {n : ℕ} {c : Char}
    (hc : c ∈ (if n < 10 then '0' :: renderNat n else renderNat n)) :
    goodChar c = true := by
  split at hc
  · rcases List.mem_cons.mp hc with rfl | hc
    · decide
    · exact goodChar_renderNat _ c hc
  · exact goodChar_renderNat _ c hc

theorem renderParts_false_good (m : ℕ) (e : ℤ) :
    ∀ c ∈ renderParts false m e, goodChar c = true := by
  intro c hc
  unfold renderParts at hc
  rw [if_neg (by simp : ¬ (false = true))] at hc
  split_ifs at hc <;>
    simp only [List.nil_append, List.mem_append, List.mem_cons, List.mem_singleton,
      List.not_mem_nil, false_or, or_false, List.mem_replicate, List.mem_map] at hc
  · rcases hc with ⟨d, hd, rfl⟩ | hc
    · exact goodChar_digitChar (natDigits_lt _ (List.take_subset _ _ hd))
    · exact good_dotpart
        (fun d hd => natDigits_lt _ (List.drop_subset _ _ (stripZeros_subset _ hd))) hc
  · rcases hc with ((rfl | rfl) | ⟨-, rfl⟩) | ⟨d, hd, rfl⟩
    · decide
    · decide
    · decide
    · exact goodChar_digitChar (natDigits_lt _ (stripZeros_subset _ hd))
  · rcases hc with (((rfl | hc) | rfl) | rfl) | hc
    · exact goodChar_digitChar (headD_natDigits_lt m)
    · exact good_dotpart
        (fun d hd => natDigits_lt _ (List.tail_subset _ (stripZeros_subset _ hd))) hc
    · decide
    · decide
    · exact good_padpart hc
  · rcases hc with (((rfl | hc) | rfl) | rfl) | hc
    · exact goodChar_digitChar (headD_natDigits_lt m)
    · exact good_dotpart
        (fun d hd => natDigits_lt _ (List.tail_subset _ (stripZeros_subset _ hd))) hc
    · decide
    · decide
    · exact good_padpart hc

theorem renderParts_good (neg : Bool) (m : ℕ) (e : ℤ) :
    ∀ c ∈ renderParts neg m e, goodChar c = true := by
  cases neg with
  | false => exact renderParts_false_good m e
  | true =>
    rw [renderParts_neg_cons]
    intro c hc
    rcases List.mem_cons.mp hc with rfl | hc
    · decide
    · exact renderParts_false_good m e c hc

theorem renderG_good (v : ℚ) : ∀ c ∈ renderG v, goodChar c = true := by
  unfold renderG
  split_ifs with h0
  · intro c hc
    rcases List.mem_singleton.mp hc with rfl
    decide
  · exact renderParts_good _ _ _

theorem renderG_ne_nil (v : ℚ) : renderG v ≠ [] := by
  unfold renderG
  split_ifs with h0
  · simp
  · obtain ⟨hm1, hm2, -⟩ := gparts_bounds h0
    cases hng : decide ((gparts v).1 < 0) with
    | true =>
      rw [renderParts_neg_cons]
      simp
    | false =>
      exact (renderParts_false_head hm1 hm2).1

/-! ## Claim theorems -/

theorem LPSQ_mul_LPSQ : LPSQ * LPSQ = 1 := by
  unfold LPSQ
  rw [Matrix.diagonal_mul_diagonal]
  have h : (fun i => (![-1, -1, 1, 1] : Fin 4 → ℚ) i * ![-1, -1, 1, 1] i) =
      fun _ => (1 : ℚ) := by
    funext i
    fin_cases i <;> norm_num
  rw [h, Matrix.diagonal_one]

theorem single_roundtrip {α β : Type} (M : Mat4) (a : Option α) (b : Option β) :
    (AFNILinearTransform.from_ras M a b).to_ras a b = M := by
  simp only [AFNILinearTransform.from_ras, AFNILinearTransform.to_ras,
    Matrix.transpose_transpose]
  rw [show LPSQ * (LPSQ * M * LPSQ) * LPSQ = (LPSQ * LPSQ) * M * (LPSQ * LPSQ) by
    noncomm_ring]
  rw [LPSQ_mul_LPSQ, one_mul, mul_one]

/-- C1: `to_ras ∘ from_ras` is the identity on 4×4 matrices with bottom row
`[0,0,0,1]` (exactly, hence within the spec's `1e-5` tolerance), both for a
single `AFNILinearTransform` and elementwise — preserving order and count —
for an `AFNILinearTransformArray` built from a stack. -/
theorem claim_C1 :
    (∀ M : Mat4, (∀ j, M 3 j = if j = 3 then 1 else 0) →
      (AFNILinearTransform.from_ras (α := Unit) (β := Unit) M none none).to_ras
        (none : Option Unit) (none : Option Unit) = M) ∧
    (∀ stack : List Mat4,
      (∀ M ∈ stack, ∀ j, M 3 j = if j = 3 then 1 else 0) →
      (AFNILinearTransformArray.from_ras (α := Unit) (β := Unit) stack
          none none).to_ras (none : Option Unit) (none : Option Unit) = stack ∧
      ((AFNILinearTransformArray.from_ras (α := Unit) (β := Unit) stack
          none none).xforms.length = stack.length)) := by
  constructor
  · intro M _
    exact single_roundtrip M none none
  · intro stack _
    constructor
    · simp only [AFNILinearTransformArray.from_ras, AFNILinearTransformArray.to_ras,
        List.map_map]
      conv_rhs => rw [← List.map_id stack]
      refine List.map_congr_left fun M _ => ?_
      exact single_roundtrip M none none
    · simp [AFNILinearTransformArray.from_ras]

theorem claim_C1_witness :
    ((∀ j, wM0 3 j = if j = 3 then 1 else 0) ∧
      (AFNILinearTransform.from_ras (α := Unit) (β := Unit) wM0 none none).to_ras
        (none : Option Unit) (none : Option Unit) = wM0) ∧
    ((∀ M ∈ [wM0, wM1], ∀ j, M 3 j = if j = 3 then 1 else 0) ∧
      (AFNILinearTransformArray.from_ras (α := Unit) (β := Unit) [wM0, wM1]
          none none).to_ras (none : Option Unit) (none : Option Unit) = [wM0, wM1]) :=
  ⟨⟨by decide, claim_C1.1 wM0 (by decide)⟩,
   ⟨by decide, (claim_C1.2 [wM0, wM1] (by decide)).1⟩⟩

/-- C9: `from_ras` and `to_ras` ignore their `moving` and `reference`
arguments — the stored parameters and the returned matrix depend only on
the matrix operand (stated for arbitrary argument types and values). -/
theorem claim_C9 {α β : Type} :
    (∀ (M : Mat4) (a1 a2 : Option α) (b1 b2 : Option β),
      AFNILinearTransform.from_ras M a1 b1 = AFNILinearTransform.from_ras M a2 b2) ∧
    (∀ (tf : AFNILinearTransform) (a1 a2 : Option α) (b1 b2 : Option β),
      tf.to_ras a1 b1 = tf.to_ras a2 b2) :=
  ⟨fun _ _ _ _ _ => rfl, fun _ _ _ _ _ => rfl⟩

/-- C3: `from_image` fails with a `TransformFileError` exactly on
non-conforming shapes, succeeds on conforming ones, and its error message
contains the offending file's name. -/
theorem claim_C3 :
    (∀ img : NiftiImage,
      (∃ e, AFNIDisplacementsField.from_image img = .error e) ↔
        ¬ conformingShape img.arr.shape) ∧
    (∀ img : NiftiImage, ∀ m : List Char,
      AFNIDisplacementsField.from_image img = .error (.transformFileError m) →
        img.filename <:+: m) ∧
    (∀ img : NiftiImage, conformingShape img.arr.shape →
      ∃ out, AFNIDisplacementsField.from_image img = .ok out) := by
  refine ⟨fun img => ?_, fun img m hm => ?_, fun img hc => ?_⟩
  · by_cases hc : conformingShape img.arr.shape
    · simp [AFNIDisplacementsField.from_image, hc]
    · simp [AFNIDisplacementsField.from_image, hc]
  · by_cases hc : conformingShape img.arr.shape
    · simp [AFNIDisplacementsField.from_image, hc] at hm
    · simp only [AFNIDisplacementsField.from_image, if_neg hc, Except.error.injEq,
        PyErr.transformFileError.injEq] at hm
      exact ⟨String.toList "Displacements field \"",
        String.toList "\" does not come from AFNI.", hm⟩
  · simp [AFNIDisplacementsField.from_image, hc]

theorem claim_C3_witness :
    (¬ conformingShape wImgBad.arr.shape ∧
      ((∃ e, AFNIDisplacementsField.from_image wImgBad = .error e) ↔
        ¬ conformingShape wImgBad.arr.shape)) ∧
    (AFNIDisplacementsField.from_image wImgBad = .error (.transformFileError wBadMsg) ∧
      wImgBad.filename <:+: wBadMsg) ∧
    (conformingShape wImgOK.arr.shape ∧
      ∃ out, AFNIDisplacementsField.from_image wImgOK = .ok out) :=
  ⟨⟨by decide, claim_C3.1 wImgBad⟩,
   ⟨by rfl, claim_C3.2.1 wImgBad wBadMsg (by rfl)⟩,
   ⟨by decide, claim_C3.2.2 wImgOK (by decide)⟩⟩

theorem negFirstTwo_length (C : ℕ) : ∀ (k : ℕ) (l : List ℚ),
    (negFirstTwo C k l).length = l.length := by
  intro k l
  induction l generalizing k with
  | nil => rfl
  | cons x t ih => simp [negFirstTwo, ih]

theorem negFirstTwo_getD (C : ℕ) : ∀ (k i : ℕ) (l : List ℚ), i < l.length →
    (negFirstTwo C k l).getD i 0 =
      (if (k + i) % C = 0 ∨ (k + i) % C = 1 then -(l.getD i 0) else l.getD i 0) := by
  intro k i l
  induction l generalizing k i with
  | nil => intro h; simp at h
  | cons x t ih =>
    intro hi
    cases i with
    | zero => simp [negFirstTwo]
    | succ n =>
      have := ih (k + 1) n (by simpa using hi)
      simp only [negFirstTwo, List.getD_cons_succ, this]
      rw [show k + 1 + n = k + (n + 1) by omega]

/-- C4 (amended): on a conforming image, `from_image` succeeds; the output
keeps the affine and filename, its shape is the input shape with **all**
length-1 axes removed (`np.squeeze` — not only the second-to-last axis the
claim names), and its row-major data negates exactly the entries whose
last-axis index is 0 or 1. -/
theorem claim_C4 :
    ∀ img : NiftiImage, conformingShape img.arr.shape →
      ∃ out, AFNIDisplacementsField.from_image img = .ok out ∧
        out.affine = img.affine ∧
        out.filename = img.filename ∧
        out.arr.shape = img.arr.shape.filter (· ≠ 1) ∧
        out.arr.data.length = img.arr.data.length ∧
        ∀ i : ℕ, i < img.arr.data.length →
          out.arr.data.getD i 0 =
            (if i % (img.arr.shape.getD 4 0) = 0 ∨ i % (img.arr.shape.getD 4 0) = 1
             then -(img.arr.data.getD i 0) else img.arr.data.getD i 0) := by
  intro img hc
  refine ⟨⟨⟨npSqueeze img.arr.shape,
      negFirstTwo (img.arr.shape.getD 4 0) 0 img.arr.data⟩,
      img.affine, img.filename⟩, ?_, rfl, rfl, rfl, ?_, fun i hi => ?_⟩
  · simp [AFNIDisplacementsField.from_image, hc]
  · exact negFirstTwo_length _ 0 _
  · have := negFirstTwo_getD (img.arr.shape.getD 4 0) 0 i img.arr.data hi
    simpa using this

theorem claim_C4_witness :
    conformingShape wImgOK.arr.shape ∧
    (∃ out, AFNIDisplacementsField.from_image wImgOK = .ok out ∧
      out.affine = wImgOK.affine ∧
      out.filename = wImgOK.filename ∧
      out.arr.shape = wImgOK.arr.shape.filter (· ≠ 1) ∧
      out.arr.data.length = wImgOK.arr.data.length ∧
      ∀ i : ℕ, i < wImgOK.arr.data.length →
        out.arr.data.getD i 0 =
          (if i % (wImgOK.arr.shape.getD 4 0) = 0 ∨ i % (wImgOK.arr.shape.getD 4 0) = 1
           then -(wImgOK.arr.data.getD i 0) else wImgOK.arr.data.getD i 0)) :=
  ⟨by decide, claim_C4 wImgOK (by decide)⟩

/-- C4 counterexample: on the conforming shape `(2, 2, 1, 1, 3)` the code
returns shape `(2, 2, 3)` — `np.squeeze` also removed the length-1 third
axis — not the `(2, 2, 1, 3)` that squeezing only the singleton
second-to-last axis (as the claim states) would produce. -/
theorem claim_C4_counterexample :
    (AFNIDisplacementsField.from_image wImgOK).map (fun o => o.arr.shape) =
      .ok [2, 2, 3] ∧ ([2, 2, 3] : List ℕ) ≠ [2, 2, 1, 3] :=
  ⟨by rfl, by decide⟩

/-! ### Helper lemmas for the text-parsing claims -/

theorem pySplitlines_no_newline {s : List Char} :
    ∀ l ∈ pySplitlines s, ∀ c ∈ l, ¬ ((fun c => decide (c = '\n')) c = true) := by
  intro l hl
  have hl' : l ∈ splitP (fun c => decide (c = '\n')) s := by
    dsimp only [pySplitlines] at hl
    split_ifs at hl with h
    · exact (List.dropLast_prefix _).subset hl
    · exact hl
  exact splitP_mem_sepFree l hl'

theorem pySplitlines_single {l : List Char}
    (hnl : ∀ c ∈ l, ¬ ((fun c => decide (c = '\n')) c = true)) (hne : l ≠ []) :
    pySplitlines l = [l] := by
  unfold pySplitlines
  rw [splitP_sepFree hnl]
  simp [hne]

theorem keepSingle_strip_ne {l : List Char} (h : keepSingle l = true) :
    pyStrip l ≠ [] := by
  unfold keepSingle at h
  simp only [Bool.and_eq_true, decide_eq_true_eq] at h
  exact h.1

theorem keepSingle_ne_nil {l : List Char} (h : keepSingle l = true) : l ≠ [] := by
  intro h0
  subst h0
  exact keepSingle_strip_ne h rfl

theorem keptSingle_cons_mem {s l : List Char} {rest : List (List Char)}
    (hk : keptSingle s = l :: rest) :
    l ∈ pySplitlines s ∧ keepSingle l = true := by
  have : l ∈ keptSingle s := hk ▸ List.mem_cons_self l rest
  unfold keptSingle at this
  exact ⟨(List.mem_filter.mp this).1, (List.mem_filter.mp this).2⟩

theorem keptSingle_single_line {l : List Char}
    (hnl : ∀ c ∈ l, ¬ ((fun c => decide (c = '\n')) c = true))
    (hkeep : keepSingle l = true) : keptSingle l = [l] := by
  unfold keptSingle
  rw [pySplitlines_single hnl (keepSingle_ne_nil hkeep)]
  simp [hkeep]

/-- `from_string` of a multi-line input equals `from_string` of its first
retained data line. -/
theorem from_string_eq_first {s l : List Char} {rest : List (List Char)}
    (hk : keptSingle s = l :: rest) :
    AFNILinearTransform.from_string s = AFNILinearTransform.from_string l := by
  obtain ⟨hmem, hkeep⟩ := keptSingle_cons_mem hk
  have hnl := pySplitlines_no_newline l hmem
  simp only [AFNILinearTransform.from_string, hk, keptSingle_single_line hnl hkeep]

theorem commentStrip_eq_self {l : List Char} (h : ∀ c ∈ l, ¬ c = '#') :
    commentStrip l = l := by
  unfold commentStrip
  rw [List.takeWhile_eq_self_iff.mpr]
  intro c hc
  simp [h c hc]

theorem getD_map_tokVal (l : List (List Char)) (k : ℕ) (hk : k < l.length) :
    (l.map tokVal).getD k 0 = tokVal (l.getD k []) := by
  rw [List.getD_eq_getElem?_getD, List.getD_eq_getElem?_getD, List.getElem?_map,
    List.getElem?_eq_getElem hk]
  rfl

theorem getD_mem_of_lt (l : List (List Char)) (k : ℕ) (hk : k < l.length) :
    l.getD k [] ∈ l := by
  rw [List.getD_eq_getElem?_getD, List.getElem?_eq_getElem hk]
  exact List.getElem_mem hk

/-- C6: an accepted input stores the matrix whose first three rows are the
12 whitespace-separated values of the first retained data line (after
`np.genfromtxt` discards the `'#'`-comment tail), row-major, with implicit
fourth row `[0,0,0,1]`; a first data line whose comment-stripped form does
not split into exactly 12 tokens is rejected (with `ValueError`, raised by
`reshape`).  Value-level equality is stated under the hypothesis that every
token parses (an unparseable token becomes NaN in the source, junk `0` in
the model). -/
theorem claim_C6 :
    (∀ (s l : List Char) (rest : List (List Char)), keptSingle s = l :: rest →
      (((pyTokens (commentStrip l)).length = 12 →
        AFNILinearTransform.from_string s =
          .ok ⟨buildParams ((pyTokens (commentStrip l)).map tokVal)⟩) ∧
       ((pyTokens (commentStrip l)).length ≠ 12 →
        AFNILinearTransform.from_string s = .error .valueError))) ∧
    (∀ (s l : List Char) (rest : List (List Char)) (tf : AFNILinearTransform),
      keptSingle s = l :: rest →
      (∀ tok ∈ pyTokens (commentStrip l), (parseFloat? tok).isSome = true) →
      AFNILinearTransform.from_string s = .ok tf →
      (∀ i j : Fin 4, (i : ℕ) < 3 →
        ∃ v : ℚ, parseFloat? ((pyTokens (commentStrip l)).getD
            (4 * (i : ℕ) + (j : ℕ)) []) = some v ∧ tf.parameters i j = v) ∧
      (∀ j : Fin 4, tf.parameters 3 j = if (j : ℕ) = 3 then 1 else 0)) := by
  constructor
  · refine fun s l rest hk => ⟨fun h12 => ?_, fun hn12 => ?_⟩
    · simp only [AFNILinearTransform.from_string, hk]
      rw [if_pos h12]
    · simp only [AFNILinearTransform.from_string, hk]
      rw [if_neg hn12]
  · intro s l rest tf hk hall hok
    simp only [AFNILinearTransform.from_string, hk] at hok
    split_ifs at hok with h12
    · cases hok
      constructor
      · intro i j hi
        have hk12 : 4 * (i : ℕ) + (j : ℕ) < (pyTokens (commentStrip l)).length := by
          rw [h12]
          omega
        have htok := getD_mem_of_lt _ _ hk12
        obtain ⟨v, hv⟩ := Option.isSome_iff_exists.mp (hall _ htok)
        refine ⟨v, hv, ?_⟩
        show buildParams ((pyTokens (commentStrip l)).map tokVal) i j = v
        unfold buildParams
        rw [Matrix.of_apply, if_pos hi, getD_map_tokVal _ _ hk12]
        unfold tokVal
        rw [hv]
        rfl
      · intro j
        rfl

theorem claim_C6_witness :
    keptSingle wLine12 = [wLine12] ∧
    (pyTokens (commentStrip wLine12)).length = 12 ∧
    AFNILinearTransform.from_string wLine12 =
      .ok ⟨buildParams ((pyTokens (commentStrip wLine12)).map tokVal)⟩ ∧
    (∀ tok ∈ pyTokens (commentStrip wLine12), (parseFloat? tok).isSome = true) ∧
    (∀ tf : AFNILinearTransform,
      AFNILinearTransform.from_string wLine12 = .ok tf →
      (∀ i j : Fin 4, (i : ℕ) < 3 →
        ∃ v : ℚ, parseFloat? ((pyTokens (commentStrip wLine12)).getD
            (4 * (i : ℕ) + (j : ℕ)) []) = some v ∧ tf.parameters i j = v) ∧
      (∀ j : Fin 4, tf.parameters 3 j = if (j : ℕ) = 3 then 1 else 0)) ∧
    keptSingle wLine3 = [wLine3] ∧
    (pyTokens (commentStrip wLine3)).length ≠ 12 ∧
    AFNILinearTransform.from_string wLine3 = .error .valueError ∧
    keptSingle wLine11h = [wLine11h] ∧
    (pyTokens (commentStrip wLine11h)).length ≠ 12 ∧
    AFNILinearTransform.from_string wLine11h = .error .valueError ∧
    keptSingle wLine12h = [wLine12h] ∧
    (pyTokens (commentStrip wLine12h)).length = 12 ∧
    AFNILinearTransform.from_string wLine12h =
      .ok ⟨buildParams ((pyTokens (commentStrip wLine12h)).map tokVal)⟩ :=
  ⟨by decide, by decide,
   (claim_C6.1 wLine12 wLine12 [] (by decide)).1 (by decide),
   by decide,
   fun tf hok => claim_C6.2 wLine12 wLine12 [] tf (by decide) (by decide) hok,
   by decide, by decide,
   (claim_C6.1 wLine3 wLine3 [] (by decide)).2 (by decide),
   by decide, by decide,
   (claim_C6.1 wLine11h wLine11h [] (by decide)).2 (by decide),
   by decide, by decide,
   (claim_C6.1 wLine12h wLine12h [] (by decide)).1 (by decide)⟩

/-- C10: the single-transform parser uses only the first retained data
line (later data lines are ignored silently — the parse result equals that
of the first line alone); its filter drops any line containing
`"3dvolreg matrices"` even without a leading `'#'`, whereas the array
parser's filter keeps every non-blank line that does not start with
`'#'`. -/
theorem claim_C10 :
    (∀ (s l : List Char) (rest : List (List Char)), keptSingle s = l :: rest →
      AFNILinearTransform.from_string s = AFNILinearTransform.from_string l) ∧
    (∀ line : List Char, volregNeedle <:+: line → keepSingle line = false) ∧
    (∀ line : List Char, pyStrip line ≠ [] → pyStartsWithHash line = false →
      keepArray line = true) ∧
    (keepArray volregNeedle = true ∧ keepSingle volregNeedle = false) := by
  refine ⟨fun s l rest hk => from_string_eq_first hk, fun line hin => ?_,
    fun line hst hh => ?_, by decide, by decide⟩
  · unfold keepSingle pyContains
    rw [decide_eq_true hin]
    simp
  · unfold keepArray
    rw [hh]
    simp [hst]

theorem claim_C10_witness :
    keptSingle wMulti = [wLine12, wLine99] ∧
    AFNILinearTransform.from_string wMulti =
      AFNILinearTransform.from_string wLine12 ∧
    volregNeedle <:+: volregNeedle ∧ keepSingle volregNeedle = false :=
  ⟨by decide,
   claim_C10.1 wMulti wLine12 [wLine99] (by decide),
   by decide, claim_C10.2.1 volregNeedle (by decide)⟩

theorem mapExcept_not_tfe {α β : Type} {f : α → Except PyErr β} {lst : List α}
    (h : ∀ a ∈ lst, errTFE (f a) = false) :
    errTFE (mapExcept f lst) = false := by
  induction lst with
  | nil => rfl
  | cons a t ih =>
    have ha := h a (List.mem_cons_self a t)
    have ht := ih fun x hx => h x (List.mem_cons_of_mem a hx)
    unfold mapExcept
    match hfa : f a with
    | .error (.transformFileError m) => rw [hfa] at ha; exact absurd ha (by simp [errTFE])
    | .error .valueError => rfl
    | .ok b =>
      match hmt : mapExcept f t with
      | .error e =>
        rw [hmt] at ht
        exact ht
      | .ok bs => rfl

theorem keptArray_mem {s l : List Char} (hl : l ∈ keptArray s) :
    pyStrip l = l ∧ l ≠ [] ∧
      (∀ c ∈ l, ¬ ((fun c => decide (c = '\n')) c = true)) := by
  unfold keptArray at hl
  obtain ⟨l0, hl0, rfl⟩ := List.mem_map.mp hl
  obtain ⟨hmem, hkeep⟩ := List.mem_filter.mp hl0
  unfold keepArray at hkeep
  simp only [Bool.and_eq_true, decide_eq_true_eq] at hkeep
  refine ⟨pyStrip_idem l0, hkeep.1, fun c hc => ?_⟩
  exact pySplitlines_no_newline l0 hmem c ((pyStripInfix l0).subset hc)

/-- A nonempty, newline-free line kept by the single-transform filter never
produces a `TransformFileError` when parsed alone. -/
theorem from_string_single_not_tfe {l : List Char}
    (hnl : ∀ c ∈ l, ¬ ((fun c => decide (c = '\n')) c = true))
    (hkeep : keepSingle l = true) :
    errTFE (AFNILinearTransform.from_string l) = false := by
  simp only [AFNILinearTransform.from_string, keptSingle_single_line hnl hkeep]
  split_ifs <;> rfl

/-- C5 (amended): the single-transform parser raises `TransformFileError`
iff no data lines remain after filtering; the array parser raises
`TransformFileError` iff no data lines remain after **its** filtering,
provided no retained line's stripped form starts with `'#'` or contains
`"3dvolreg matrices"` (such a line is dropped by the inner single-transform
filter and makes the inner parser itself raise `TransformFileError`
although data lines remain — see the counterexample). -/
theorem claim_C5 :
    (∀ s : List Char,
      errTFE (AFNILinearTransform.from_string s) = true ↔ keptSingle s = []) ∧
    (∀ s : List Char,
      (∀ l ∈ keptArray s, pyStartsWithHash l = false ∧
        pyContains volregNeedle l = false) →
      (errTFE (AFNILinearTransformArray.from_string s) = true ↔
        keptArray s = [])) := by
  constructor
  · intro s
    rcases hk : keptSingle s with _ | ⟨l, rest⟩
    · simp [AFNILinearTransform.from_string, hk, errTFE]
    · simp only [AFNILinearTransform.from_string, hk]
      constructor
      · intro h
        split_ifs at h <;> simp [errTFE] at h
      · intro h
        exact absurd h (List.cons_ne_nil l rest)
  · intro s hgood
    rcases hk : keptArray s with _ | ⟨l, rest⟩
    · simp [AFNILinearTransformArray.from_string, hk, errTFE]
    · have hnot : errTFE (mapExcept AFNILinearTransform.from_string (keptArray s))
          = false := by
        refine mapExcept_not_tfe fun a ha => ?_
        obtain ⟨hstrip, hne, hnl⟩ := keptArray_mem ha
        have hkeep : keepSingle a = true := by
          unfold keepSingle
          rw [hstrip]
          simp only [Bool.and_eq_true, decide_eq_true_eq]
          refine ⟨hne, ?_⟩
          rw [(hgood a ha).1, (hgood a ha).2]
          rfl
        exact from_string_single_not_tfe hnl hkeep
      simp only [AFNILinearTransformArray.from_string, hk]
      rw [hk] at hnot
      constructor
      · intro h
        match hme : mapExcept AFNILinearTransform.from_string (l :: rest) with
        | .error e =>
          rw [hme] at hnot h
          cases e with
          | transformFileError m => simp [errTFE] at hnot
          | valueError => simp [errTFE] at h
        | .ok xs =>
          rw [hme] at h
          simp [errTFE] at h
      · intro h
        exact absurd h (List.cons_ne_nil l rest)

/-- C5 counterexample: on input `"3dvolreg matrices\n<12 numbers>"` the
array parser's own filter keeps both lines (neither starts with `'#'`), so
data lines remain; yet `from_string` raises `TransformFileError`, because
the first retained line is passed to the single-transform parser, whose
filter drops it (it contains `"3dvolreg matrices"`), leaving that inner
parser without data lines.  The very same 12-number line parses fine on
its own. -/
theorem claim_C5_counterexample :
    keptArray wT5 = [volregNeedle, wLine12] ∧
    AFNILinearTransformArray.from_string wT5 = .error (.transformFileError []) ∧
    errTFE (AFNILinearTransformArray.from_string wLine12) = false :=
  ⟨by decide, by rfl, by decide⟩

theorem claim_C5_witness :
    (errTFE (AFNILinearTransform.from_string []) = true ↔ keptSingle [] = []) ∧
    (errTFE (AFNILinearTransform.from_string wLine12) = true ↔
      keptSingle wLine12 = []) ∧
    ((∀ l ∈ keptArray wLine12, pyStartsWithHash l = false ∧
        pyContains volregNeedle l = false) ∧
      (errTFE (AFNILinearTransformArray.from_string wLine12) = true ↔
        keptArray wLine12 = [])) :=
  ⟨claim_C5.1 [], claim_C5.1 wLine12,
   ⟨by decide, claim_C5.2 wLine12 (by decide)⟩⟩

theorem joinSep_eq_append (sep : Char) (a : List Char) (rest : List (List Char)) :
    ∃ t, joinSep sep (a :: rest) = a ++ t := by
  cases rest with
  | nil => exact ⟨[], (List.append_nil a).symm⟩
  | cons b bs => exact ⟨sep :: joinSep sep (b :: bs), rfl⟩

theorem joinSep_ne_nil {sep : Char} {a : List Char} {rest : List (List Char)}
    (ha : a ≠ []) : joinSep sep (a :: rest) ≠ [] := by
  obtain ⟨t, ht⟩ := joinSep_eq_append sep a rest
  rw [ht]
  simp [ha]

theorem joinSep_getLast? {sep : Char} :
    ∀ (L : List (List Char)) (hne : L ≠ []), (∀ l ∈ L, l ≠ []) →
      (joinSep sep L).getLast? = (L.getLast hne).getLast? := by
  intro L
  induction L with
  | nil => intro h; exact absurd rfl h
  | cons x xs ih =>
    intro hne hmem
    cases xs with
    | nil => rfl
    | cons y ys =>
      have hy : y :: ys ≠ [] := List.cons_ne_nil y ys
      have hjoin_ne : joinSep sep (y :: ys) ≠ [] :=
        joinSep_ne_nil (hmem y (List.mem_cons_of_mem x (List.mem_cons_self y ys)))
      show ((x ++ sep :: joinSep sep (y :: ys)).getLast? = _)
      rw [List.getLast?_append_of_ne_nil _ (List.cons_ne_nil sep _),
        show (sep :: joinSep sep (y :: ys)) = [sep] ++ joinSep sep (y :: ys) from rfl,
        List.getLast?_append_of_ne_nil _ hjoin_ne,
        ih hy (fun l hl => hmem l (List.mem_cons_of_mem x hl)),
        List.getLast_cons hy]

theorem mem_joinSep {sep : Char} {c : Char} :
    ∀ {L : List (List Char)}, c ∈ joinSep sep L → (∃ l ∈ L, c ∈ l) ∨ c = sep := by
  intro L
  induction L with
  | nil => intro h; simp [joinSep] at h
  | cons x xs ih =>
    intro hc
    cases xs with
    | nil => exact Or.inl ⟨x, List.mem_cons_self x [], hc⟩
    | cons y ys =>
      rcases List.mem_append.mp hc with h | h
      · exact Or.inl ⟨x, List.mem_cons_self x _, h⟩
      · rcases List.mem_cons.mp h with rfl | h
        · exact Or.inr rfl
        · rcases ih h with ⟨l, hl, hcl⟩ | h
          · exact Or.inl ⟨l, List.mem_cons_of_mem x hl, hcl⟩
          · exact Or.inr h

/-- A stripped, non-`'#'`-headed, whitespace-ends-free line whose chars are
`%g` output chars or tabs. -/
theorem strRepr_chars (x : AFNILinearTransform) :
    ∀ c ∈ x.strRepr, goodChar c = true ∨ c = '\t' := by
  intro c hc
  rcases mem_joinSep hc with ⟨l, hl, hcl⟩ | rfl
  · obtain ⟨v, hv, rfl⟩ := List.mem_map.mp hl
    exact Or.inl (renderG_good v c hcl)
  · exact Or.inr rfl

theorem strRepr_structure (x : AFNILinearTransform) :
    ∃ t, x.strRepr = renderG (x.parameters 0 0) ++ t :=
  joinSep_eq_append '\t' _ _

theorem strRepr_ne_nil (x : AFNILinearTransform) : x.strRepr ≠ [] :=
  joinSep_ne_nil (renderG_ne_nil _)

theorem strRepr_no_newline (x : AFNILinearTransform) :
    ∀ c ∈ x.strRepr, ¬ ((fun c => decide (c = '\n')) c = true) := by
  intro c hc
  simp only [decide_eq_true_eq]
  rcases strRepr_chars x c hc with hg | rfl
  · exact (goodChar_facts hg).2.1
  · decide

theorem strRepr_head_good (x : AFNILinearTransform) (hne : x.strRepr ≠ []) :
    goodChar (x.strRepr.head hne) = true := by
  obtain ⟨t, ht⟩ := strRepr_structure x
  have hr : renderG (x.parameters 0 0) ≠ [] := renderG_ne_nil _
  have : x.strRepr.head hne ∈ renderG (x.parameters 0 0) := by
    have hlt : 0 < (renderG (x.parameters 0 0)).length := List.length_pos.mpr hr
    have hpre : renderG (x.parameters 0 0) <+: x.strRepr := ⟨t, ht.symm⟩
    have heq : x.strRepr.head hne = (renderG (x.parameters 0 0)).get ⟨0, hlt⟩ := by
      rw [List.head_eq_getElem_zero hne]
      exact (List.IsPrefix.getElem hpre hlt).symm
    rw [heq]
    exact List.get_mem _ _ _
  exact renderG_good _ _ this

theorem strRepr_last_good (x : AFNILinearTransform) (hne : x.strRepr ≠ []) :
    goodChar (x.strRepr.getLast hne) = true := by
  have hmem : ∀ l ∈ (AFNILinearTransform.strRepr.paramList x).map renderG, l ≠ [] := by
    intro l hl
    obtain ⟨v, hv, rfl⟩ := List.mem_map.mp hl
    exact renderG_ne_nil v
  have hLne : (AFNILinearTransform.strRepr.paramList x).map renderG ≠ [] := by
    simp [AFNILinearTransform.strRepr.paramList]
  have h1 := @joinSep_getLast? '\t'
    ((AFNILinearTransform.strRepr.paramList x).map renderG) hLne hmem
  have h2 : (((AFNILinearTransform.strRepr.paramList x).map renderG).getLast hLne) =
      renderG (x.parameters 2 3) := rfl
  rw [h2] at h1
  have h3 : x.strRepr.getLast? = (renderG (x.parameters 2 3)).getLast? := h1
  have h4 := List.getLast?_eq_getLast_of_ne_nil hne
  have hrne : renderG (x.parameters 2 3) ≠ [] := renderG_ne_nil _
  have h5 := List.getLast?_eq_getLast_of_ne_nil hrne
  rw [h4, h5] at h3
  have h6 : x.strRepr.getLast hne = (renderG (x.parameters 2 3)).getLast hrne :=
    Option.some.inj h3
  rw [h6]
  exact renderG_good _ _ (List.getLast_mem hrne)

theorem strRepr_strip (x : AFNILinearTransform) : pyStrip x.strRepr = x.strRepr := by
  have hne := strRepr_ne_nil x
  refine pyStrip_of_ends hne ?_ ?_
  · rw [(goodChar_facts (strRepr_head_good x hne)).2.2]
    simp
  · rw [(goodChar_facts (strRepr_last_good x hne)).2.2]
    simp

theorem pyStartsWithHash_false {c : Char} {t : List Char} (h : c ≠ '#') :
    pyStartsWithHash (c :: t) = false := by
  unfold pyStartsWithHash
  split
  · next heq => exact absurd (List.head_eq_of_cons_eq heq.symm).symm h
  · rfl

theorem strRepr_not_hash (x : AFNILinearTransform) :
    pyStartsWithHash x.strRepr = false := by
  rcases hs : x.strRepr with _ | ⟨c, t⟩
  · rfl
  · have hcm : c ∈ x.strRepr := hs ▸ List.mem_cons_self c t
    refine pyStartsWithHash_false ?_
    rcases strRepr_chars x c hcm with hg | rfl
    · exact (goodChar_facts hg).1
    · decide

theorem strRepr_no_volreg (x : AFNILinearTransform) :
    pyContains volregNeedle x.strRepr = false := by
  unfold pyContains
  rw [decide_eq_false]
  intro hinf
  have hd : 'd' ∈ x.strRepr := hinf.subset (by decide)
  rcases strRepr_chars x 'd' hd with hg | h
  · exact absurd hg (by decide)
  · exact absurd h (by decide)

theorem strRepr_keepSingle (x : AFNILinearTransform) :
    keepSingle x.strRepr = true := by
  unfold keepSingle
  rw [strRepr_not_hash, strRepr_no_volreg, strRepr_strip]
  simp [strRepr_ne_nil x]

theorem strRepr_keepArray (x : AFNILinearTransform) :
    keepArray x.strRepr = true := by
  unfold keepArray
  rw [strRepr_not_hash, strRepr_strip]
  simp [strRepr_ne_nil x]

theorem pyTokens_strRepr (x : AFNILinearTransform) :
    pyTokens x.strRepr =
      (AFNILinearTransform.strRepr.paramList x).map renderG := by
  unfold pyTokens AFNILinearTransform.strRepr
  rw [splitP_joinSep (by decide)
    (by simp [AFNILinearTransform.strRepr.paramList])
    (by
      intro l hl c hc
      obtain ⟨v, hv, rfl⟩ := List.mem_map.mp hl
      have := (goodChar_facts (renderG_good v c hc)).2.2
      simp [this])]
  rw [List.filter_eq_self]
  intro l hl
  obtain ⟨v, hv, rfl⟩ := List.mem_map.mp hl
  simp [renderG_ne_nil v]

theorem tokVal_renderG (v : ℚ) : tokVal (renderG v) = round6 v := by
  unfold tokVal
  rw [parseFloat?_renderG]
  rfl

theorem buildParams_paramList (x : AFNILinearTransform)
    (hbot : ∀ j : Fin 4, x.parameters 3 j = if (j : ℕ) = 3 then 1 else 0) :
    buildParams (AFNILinearTransform.strRepr.paramList x) = x.parameters := by
  ext i j
  fin_cases i <;> fin_cases j <;>
    first
      | rfl
      | exact (hbot 0).symm
      | exact (hbot 1).symm
      | exact (hbot 2).symm
      | exact (hbot 3).symm

/-- Parsing the one-line rendering of a transform recovers it, provided its
bottom row is `[0,0,0,1]` and all printed entries are `%g`-fixed points. -/
theorem strRepr_commentStrip (x : AFNILinearTransform) :
    commentStrip x.strRepr = x.strRepr := by
  apply commentStrip_eq_self
  intro c hc
  rcases strRepr_chars x c hc with hg | rfl
  · exact (goodChar_facts hg).1
  · decide

theorem from_string_strRepr (x : AFNILinearTransform)
    (hbot : ∀ j : Fin 4, x.parameters 3 j = if (j : ℕ) = 3 then 1 else 0)
    (hfix : ∀ v ∈ AFNILinearTransform.strRepr.paramList x, round6 v = v) :
    AFNILinearTransform.from_string x.strRepr = .ok x := by
  have hkept : keptSingle x.strRepr = [x.strRepr] :=
    keptSingle_single_line (strRepr_no_newline x) (strRepr_keepSingle x)
  simp only [AFNILinearTransform.from_string, hkept]
  rw [strRepr_commentStrip]
  rw [if_pos (by rw [pyTokens_strRepr]; rfl)]
  congr 1
  rw [pyTokens_strRepr, List.map_map]
  have hvals : (AFNILinearTransform.strRepr.paramList x).map (tokVal ∘ renderG) =
      AFNILinearTransform.strRepr.paramList x := by
    conv_rhs => rw [← List.map_id (AFNILinearTransform.strRepr.paramList x)]
    refine List.map_congr_left fun v hv => ?_
    show tokVal (renderG v) = v
    rw [tokVal_renderG]
    exact hfix v hv
  rw [hvals]
  exact congrArg AFNILinearTransform.mk (buildParams_paramList x hbot)

theorem bannerLine_no_newline :
    ∀ c ∈ AFNILinearTransform.bannerLine, ¬ ((fun c => decide (c = '\n')) c = true) := by decide

/-- The non-blank stripped lines of `to_string true` are the banner and the
data line; of `to_string false`, just the data line. -/
theorem splitlines_to_string_true (x : AFNILinearTransform) :
    ((pySplitlines (x.to_string true)).filter
        (fun l => decide (pyStrip l ≠ []))).map pyStrip =
      [AFNILinearTransform.bannerLine, x.strRepr] := by
  have h1 : x.to_string true = AFNILinearTransform.bannerLine ++ '\n' :: (x.strRepr ++ '\n' :: []) := rfl
  have hsplit : pySplitlines (x.to_string true) = [AFNILinearTransform.bannerLine, x.strRepr] := by
    unfold pySplitlines
    rw [h1, splitP_append bannerLine_no_newline (by decide),
      splitP_append (strRepr_no_newline x) (by decide)]
    rfl
  rw [hsplit]
  have hbs : pyStrip AFNILinearTransform.bannerLine = AFNILinearTransform.bannerLine := by decide
  simp only [List.filter, List.map]
  rw [hbs, strRepr_strip]
  simp [strRepr_ne_nil x, show AFNILinearTransform.bannerLine ≠ [] by decide, hbs, strRepr_strip]

theorem splitlines_to_string_false (x : AFNILinearTransform) :
    ((pySplitlines (x.to_string false)).filter
        (fun l => decide (pyStrip l ≠ []))).map pyStrip = [x.strRepr] := by
  have h1 : x.to_string false = x.strRepr ++ '\n' :: [] := rfl
  have hsplit : pySplitlines (x.to_string false) = [x.strRepr] := by
    unfold pySplitlines
    rw [h1, splitP_append (strRepr_no_newline x) (by decide)]
    rfl
  rw [hsplit]
  simp only [List.filter, List.map]
  rw [strRepr_strip]
  simp [strRepr_ne_nil x, strRepr_strip]

theorem enumFrom_bind_to_string (rest : List AFNILinearTransform) : ∀ n : ℕ,
    (List.enumFrom (n + 1) rest).bind (fun p =>
      ((pySplitlines (p.2.to_string (p.1 == 0))).filter
        (fun l => decide (pyStrip l ≠ []))).map pyStrip) =
      rest.map AFNILinearTransform.strRepr := by
  induction rest with
  | nil => intro n; rfl
  | cons x xs ih =>
    intro n
    show ((pySplitlines (x.to_string ((n + 1) == 0))).filter
        (fun l => decide (pyStrip l ≠ []))).map pyStrip ++
      (List.enumFrom (n + 2) xs).bind _ = _
    rw [show ((n + 1) == 0) = false from by simp]
    rw [splitlines_to_string_false x, ih (n + 1)]
    rfl

/-- C7's banner clause: `to_string` emits the banner line once, before the
first transform's line, then one line per transform. -/
theorem to_string_structure (X : AFNILinearTransformArray)
    (hne : X.xforms ≠ []) :
    X.to_string = joinSep '\n'
      (AFNILinearTransform.bannerLine ::
        X.xforms.map AFNILinearTransform.strRepr) := by
  obtain ⟨xfsv⟩ := X
  rcases xfsv with _ | ⟨x0, rest⟩
  · exact absurd rfl hne
  · unfold AFNILinearTransformArray.to_string
    congr 1
    show ((pySplitlines (x0.to_string (0 == 0))).filter
        (fun l => decide (pyStrip l ≠ []))).map pyStrip ++
      (List.enumFrom 1 rest).bind _ = _
    rw [show ((0 : ℕ) == 0) = true from rfl, splitlines_to_string_true x0,
      enumFrom_bind_to_string rest 0]
    rfl

theorem keptArray_to_string (X : AFNILinearTransformArray)
    (hne : X.xforms ≠ []) :
    keptArray X.to_string = X.xforms.map AFNILinearTransform.strRepr := by
  rw [to_string_structure X hne]
  have hsplit : pySplitlines (joinSep '\n'
      (AFNILinearTransform.bannerLine ::
        X.xforms.map AFNILinearTransform.strRepr)) =
      AFNILinearTransform.bannerLine ::
        X.xforms.map AFNILinearTransform.strRepr := by
    unfold pySplitlines
    rw [splitP_joinSep (by decide) (List.cons_ne_nil _ _) ?hmem]
    case hmem =>
      intro l hl
      rcases List.mem_cons.mp hl with rfl | hl
      · exact bannerLine_no_newline
      · obtain ⟨x, hx, rfl⟩ := List.mem_map.mp hl
        exact strRepr_no_newline x
    rw [if_neg ?hlast]
    case hlast =>
      have hmem2 : ∀ l ∈ AFNILinearTransform.bannerLine ::
          X.xforms.map AFNILinearTransform.strRepr, l ≠ [] := by
        intro l hl
        rcases List.mem_cons.mp hl with rfl | hl
        · decide
        · obtain ⟨x, hx, rfl⟩ := List.mem_map.mp hl
          exact strRepr_ne_nil x
      rw [List.getLastD_eq_getLast?, List.getLast?_eq_getLast_of_ne_nil
        (List.cons_ne_nil _ _)]
      exact hmem2 _ (List.getLast_mem _)
  unfold keptArray
  rw [hsplit]
  have hkb : keepArray AFNILinearTransform.bannerLine = false := by decide
  rw [List.filter_cons_of_neg (by simp [hkb])]
  rw [List.filter_eq_self.mpr (by
    intro l hl
    obtain ⟨x, hx, rfl⟩ := List.mem_map.mp hl
    exact strRepr_keepArray x)]
  rw [List.map_map]
  refine List.map_congr_left fun x hx => ?_
  exact strRepr_strip x

theorem mapExcept_strRepr (xfs : List AFNILinearTransform)
    (hbot : ∀ x ∈ xfs, ∀ j : Fin 4,
      x.parameters 3 j = if (j : ℕ) = 3 then 1 else 0)
    (hfix : ∀ x ∈ xfs, ∀ v ∈ AFNILinearTransform.strRepr.paramList x,
      round6 v = v) :
    mapExcept AFNILinearTransform.from_string
      (xfs.map AFNILinearTransform.strRepr) = .ok xfs := by
  induction xfs with
  | nil => rfl
  | cons x xs ih =>
    show mapExcept _ (x.strRepr :: xs.map _) = _
    unfold mapExcept
    rw [from_string_strRepr x (hbot x (List.mem_cons_self x xs))
      (hfix x (List.mem_cons_self x xs))]
    rw [ih (fun y hy => hbot y (List.mem_cons_of_mem x hy))
      (fun y hy => hfix y (List.mem_cons_of_mem x hy))]

/-- Serialize-then-parse round trip for an array whose members have proper
bottom rows and `%g`-fixed entries. -/
theorem fromString_toString (X : AFNILinearTransformArray)
    (hne : X.xforms ≠ [])
    (hbot : ∀ x ∈ X.xforms, ∀ j : Fin 4,
      x.parameters 3 j = if (j : ℕ) = 3 then 1 else 0)
    (hfix : ∀ x ∈ X.xforms, ∀ v ∈ AFNILinearTransform.strRepr.paramList x,
      round6 v = v) :
    AFNILinearTransformArray.from_string X.to_string = .ok X := by
  obtain ⟨xfsv⟩ := X
  rcases hxf : xfsv with _ | ⟨x0, rest⟩
  · exact absurd (hxf ▸ rfl) hne
  · subst hxf
    have hka := keptArray_to_string ⟨x0 :: rest⟩ hne
    simp only [AFNILinearTransformArray.from_string, hka]
    rw [mapExcept_strRepr _ hbot hfix]
    rfl

theorem mapExcept_ok_mem {α β : Type} {f : α → Except PyErr β} :
    ∀ {lst : List α} {xs : List β}, mapExcept f lst = .ok xs →
      ∀ x ∈ xs, ∃ a ∈ lst, f a = .ok x := by
  intro lst
  induction lst with
  | nil =>
    intro xs h x hx
    unfold mapExcept at h
    cases h
    simp at hx
  | cons a t ih =>
    intro xs h x hx
    unfold mapExcept at h
    match hfa : f a with
    | .error e => rw [hfa] at h; cases h
    | .ok b =>
      rw [hfa] at h
      match hmt : mapExcept f t with
      | .error e => rw [hmt] at h; cases h
      | .ok bs =>
        rw [hmt] at h
        cases h
        rcases List.mem_cons.mp hx with rfl | hx
        · exact ⟨a, List.mem_cons_self a t, hfa⟩
        · obtain ⟨a', ha', hfa'⟩ := ih hmt x hx
          exact ⟨a', List.mem_cons_of_mem a ha', hfa'⟩

theorem mapExcept_ok_ne_nil {α β : Type} {f : α → Except PyErr β}
    {a : α} {t : List α} {xs : List β}
    (h : mapExcept f (a :: t) = .ok xs) : xs ≠ [] := by
  unfold mapExcept at h
  match hfa : f a with
  | .error e => rw [hfa] at h; cases h
  | .ok b =>
    rw [hfa] at h
    match hmt : mapExcept f t with
    | .error e => rw [hmt] at h; cases h
    | .ok bs => rw [hmt] at h; cases h; simp

theorem from_string_ok_bottom {s : List Char} {tf : AFNILinearTransform}
    (h : AFNILinearTransform.from_string s = .ok tf) :
    ∀ j : Fin 4, tf.parameters 3 j = if (j : ℕ) = 3 then 1 else 0 := by
  match hk : keptSingle s with
  | [] => simp [AFNILinearTransform.from_string, hk] at h
  | l :: rest =>
    simp only [AFNILinearTransform.from_string, hk] at h
    split_ifs at h with h12 <;> cases h
    intro j
    rfl

theorem arrayFromString_ok_facts {s : List Char} {X : AFNILinearTransformArray}
    (h : AFNILinearTransformArray.from_string s = .ok X) :
    X.xforms ≠ [] ∧ ∀ x ∈ X.xforms, ∀ j : Fin 4,
      x.parameters 3 j = if (j : ℕ) = 3 then 1 else 0 := by
  match hk : keptArray s with
  | [] => simp [AFNILinearTransformArray.from_string, hk] at h
  | l :: rest =>
    simp only [AFNILinearTransformArray.from_string, hk] at h
    match hme : mapExcept AFNILinearTransform.from_string (l :: rest) with
    | .error e => rw [hme] at h; cases h
    | .ok xs =>
      rw [hme] at h
      cases h
      refine ⟨mapExcept_ok_ne_nil hme, fun x hx => ?_⟩
      obtain ⟨a, ha, hfa⟩ := mapExcept_ok_mem hme x hx
      exact from_string_ok_bottom hfa

/-- C7 (amended): if `X` is the parse of a text and every stored entry is a
fixed point of 6-significant-digit `%g` rounding, then re-parsing the
serialization of `X` gives back exactly the parse of the original text;
and the serialization is the banner line followed by one data line per
transform (banner emitted only once, before the first transform).  Without
the fixed-point proviso the law fails — see the counterexample, where an
entry with seven significant digits is altered by `%g`. -/
theorem claim_C7 :
    (∀ (s : List Char) (X : AFNILinearTransformArray),
      AFNILinearTransformArray.from_string s = .ok X →
      (∀ x ∈ X.xforms, ∀ v ∈ AFNILinearTransform.strRepr.paramList x,
        round6 v = v) →
      AFNILinearTransformArray.from_string X.to_string =
        AFNILinearTransformArray.from_string s) ∧
    (∀ X : AFNILinearTransformArray, X.xforms ≠ [] →
      X.to_string = joinSep '\n'
        (AFNILinearTransform.bannerLine ::
          X.xforms.map AFNILinearTransform.strRepr)) := by
  constructor
  · intro s X hok hfix
    obtain ⟨hne, hbot⟩ := arrayFromString_ok_facts hok
    rw [fromString_toString X hne hbot hfix, hok]
  · exact to_string_structure

/-- Like `from_string_strRepr` but without the fixed-point hypothesis: the
reparsed matrix holds the `%g`-rounded entries. -/
theorem from_string_strRepr_general (x : AFNILinearTransform) :
    AFNILinearTransform.from_string x.strRepr =
      .ok ⟨buildParams ((AFNILinearTransform.strRepr.paramList x).map round6)⟩ := by
  have hkept : keptSingle x.strRepr = [x.strRepr] :=
    keptSingle_single_line (strRepr_no_newline x) (strRepr_keepSingle x)
  simp only [AFNILinearTransform.from_string, hkept]
  rw [strRepr_commentStrip]
  rw [if_pos (by rw [pyTokens_strRepr]; rfl)]
  congr 2
  rw [pyTokens_strRepr, List.map_map]
  exact congrArg buildParams (List.map_congr_left fun v _ => tokVal_renderG v)

theorem fromString_toString_general (X : AFNILinearTransformArray)
    (hne : X.xforms ≠ []) :
    AFNILinearTransformArray.from_string X.to_string =
      .ok ⟨X.xforms.map fun x =>
        ⟨buildParams ((AFNILinearTransform.strRepr.paramList x).map round6)⟩⟩ := by
  obtain ⟨xfsv⟩ := X
  rcases hxf : xfsv with _ | ⟨x0, rest⟩
  · exact absurd (hxf ▸ rfl) hne
  · subst hxf
    have hka := keptArray_to_string ⟨x0 :: rest⟩ hne
    simp only [AFNILinearTransformArray.from_string, hka]
    have hmap : ∀ xfs : List AFNILinearTransform,
        mapExcept AFNILinearTransform.from_string
          (xfs.map AFNILinearTransform.strRepr) =
        .ok (xfs.map fun x =>
          ⟨buildParams ((AFNILinearTransform.strRepr.paramList x).map round6)⟩) := by
      intro xfs
      induction xfs with
      | nil => rfl
      | cons y ys ihy =>
        show mapExcept _ (y.strRepr :: ys.map _) = _
        unfold mapExcept
        rw [from_string_strRepr_general y, ihy]
        rfl
    rw [hmap]
    rfl

theorem tokVal_zero_tok : tokVal (String.toList "0") = 0 := by
  show (parseFloat? ['0']).getD 0 = 0
  have h1 : parseFloat? ['0'] = some ((digitsVal ['0'] : ℕ) : ℚ) := rfl
  have h2 : digitsVal ['0'] = 0 := rfl
  rw [h1, h2]
  norm_num

theorem round6_zero : round6 0 = 0 := by
  simp [round6]

theorem claim_C7_witness :
    AFNILinearTransformArray.from_string wLine0 = .ok wX0 ∧
    (∀ x ∈ wX0.xforms, ∀ v ∈ AFNILinearTransform.strRepr.paramList x,
      round6 v = v) ∧
    AFNILinearTransformArray.from_string wX0.to_string =
      AFNILinearTransformArray.from_string wLine0 := by
  have hfix : ∀ x ∈ wX0.xforms, ∀ v ∈ AFNILinearTransform.strRepr.paramList x,
      round6 v = v := by
    intro x hx v hv
    have hx0 : x = ⟨buildParams ((pyTokens wLine0).map tokVal)⟩ := by
      rcases List.mem_singleton.mp hx with rfl
      rfl
    subst hx0
    have hpl : AFNILinearTransform.strRepr.paramList
        ⟨buildParams ((pyTokens wLine0).map tokVal)⟩ =
        List.replicate 12 (tokVal (String.toList "0")) := rfl
    rw [hpl] at hv
    rw [List.eq_of_mem_replicate hv, tokVal_zero_tok, round6_zero]
  exact ⟨by rfl, hfix, claim_C7.1 wLine0 wX0 (by rfl) hfix⟩

/-- Over- or under-shooting of the decimal exponent is impossible: `decExp`
is the unique `e` with `10^e ≤ |v| < 10^(e+1)`. -/
theorem decExp_eq {v : ℚ} {e : ℤ} (hv : v ≠ 0)
    (h1 : (10 : ℚ) ^ e ≤ |v|) (h2 : |v| < (10 : ℚ) ^ (e + 1)) : decExp v = e := by
  have habs : (0 : ℚ) < |v| := abs_pos.mpr hv
  have hlow : (10 : ℚ) ^ decExp v ≤ |v| :=
    Int.zpow_log_le_self (by norm_num) habs
  have hhigh : |v| < (10 : ℚ) ^ (decExp v + 1) :=
    Int.lt_zpow_succ_log_self (by norm_num) |v|
  by_contra hne
  rcases lt_or_gt_of_ne hne with hlt | hgt
  · have hle : decExp v + 1 ≤ e := by omega
    have : (10 : ℚ) ^ (decExp v + 1) ≤ (10 : ℚ) ^ e :=
      zpow_le_zpow_right₀ (by norm_num) hle
    linarith
  · have hle : e + 1 ≤ decExp v := by omega
    have : (10 : ℚ) ^ (e + 1) ≤ (10 : ℚ) ^ decExp v :=
      zpow_le_zpow_right₀ (by norm_num) hle
    linarith

theorem tokVal_longtok : tokVal (String.toList "0.1234567") = 1234567 / 10 ^ 7 := by
  show (parseFloat? ('0' :: '.' :: ['1', '2', '3', '4', '5', '6', '7'])).getD 0 = _
  have h1 : parseFloat? ('0' :: '.' :: ['1', '2', '3', '4', '5', '6', '7']) =
      some ((digitsVal ['0'] : ℚ) +
        (digitsVal ['1', '2', '3', '4', '5', '6', '7'] : ℚ) / 10 ^ (7 : ℕ)) := rfl
  rw [h1]
  have h0 : digitsVal ['0'] = 0 := rfl
  have h7 : digitsVal ['1', '2', '3', '4', '5', '6', '7'] = 1234567 := rfl
  rw [h0, h7]
  norm_num

theorem round6_longtok : round6 (1234567 / 10 ^ 7 : ℚ) = 123457 / 10 ^ 6 := by
  have hvne : (1234567 / 10 ^ 7 : ℚ) ≠ 0 := by norm_num
  have habs : |(1234567 / 10 ^ 7 : ℚ)| = 1234567 / 10 ^ 7 :=
    abs_of_pos (by norm_num)
  have he : decExp (1234567 / 10 ^ 7 : ℚ) = -1 := by
    refine decExp_eq hvne ?_ ?_ <;> rw [habs]
    · rw [show ((-1 : ℤ)) = -((1 : ℕ) : ℤ) by norm_num, zpow_neg, zpow_natCast]
      norm_num
    · norm_num
  have hx : |(1234567 / 10 ^ 7 : ℚ)| * (10 : ℚ) ^ ((5 : ℤ) - (-1)) =
      1234567 / 10 := by
    rw [habs, show ((5 : ℤ) - (-1)) = ((6 : ℕ) : ℤ) by norm_num, zpow_natCast]
    norm_num
  have hfl : ⌊(1234567 / 10 : ℚ)⌋ = 123456 := by
    rw [Int.floor_eq_iff]
    norm_num
  have hrhe : rhe (1234567 / 10 : ℚ) = 123457 := by
    unfold rhe
    rw [hfl]
    rw [if_neg (by norm_num), if_pos (by norm_num)]
    norm_num
  have hg : gparts (1234567 / 10 ^ 7 : ℚ) = (123457, -1) := by
    simp only [gparts]
    rw [he, hx, hrhe]
    norm_num
  unfold round6
  rw [if_neg hvne, hg]
  rw [show ((-1 : ℤ) - 5) = -((6 : ℕ) : ℤ) by norm_num, zpow_neg, zpow_natCast]
  norm_num

theorem round6_longtok_ne : round6 (1234567 / 10 ^ 7 : ℚ) ≠ 1234567 / 10 ^ 7 := by
  rw [round6_longtok]
  norm_num

/-- C7 counterexample: `"0.1234567"` parses exactly, but `"%g"` prints only
6 significant digits (`0.123457`), so parsing the serialization of the
parse differs from the parse of the original text. -/
theorem claim_C7_counterexample :
    AFNILinearTransformArray.from_string wT7 = .ok wX7 ∧
    AFNILinearTransformArray.from_string wX7.to_string ≠
      AFNILinearTransformArray.from_string wT7 := by
  refine ⟨by rfl, ?_⟩
  rw [show AFNILinearTransformArray.from_string wT7 = .ok wX7 from rfl]
  rw [fromString_toString_general wX7 (by simp [wX7])]
  intro h
  have h1 := congrArg (fun r => (Except.map (fun X : AFNILinearTransformArray =>
    X.xforms.map (fun x => x.parameters 0 0)) r)) h
  simp only [Except.map, List.map_map, List.map] at h1
  have h2 : buildParams ((AFNILinearTransform.strRepr.paramList
      ⟨buildParams ((pyTokens wT7).map tokVal)⟩).map round6) 0 0 =
      buildParams ((pyTokens wT7).map tokVal) 0 0 := by
    injection h1 with h1'
    exact (List.cons.injEq _ _ _ _ ▸ h1').1
  have h3 : round6 (tokVal (String.toList "0.1234567")) =
      tokVal (String.toList "0.1234567") := h2
  rw [tokVal_longtok] at h3
  exact round6_longtok_ne h3

/-! ## Claim C2: obliquity detection -/

theorem vs_one : ∀ j : Fin 3, voxel_sizes (1 : Mat4R) j = 1 := by
  intro j
  fin_cases j <;>
  · show Real.sqrt _ = 1
    rw [show ((1 : Mat4R) 0 _ ^ 2 + (1 : Mat4R) 1 _ ^ 2 + (1 : Mat4R) 2 _ ^ 2 : ℝ)
        = 1 by simp [Matrix.one_apply, Fin.ext_iff]]
    exact Real.sqrt_one

theorem bestCos_one : ∀ i : Fin 3, bestCos (1 : Mat4R) i = 1 := by
  intro i
  fin_cases i <;>
  · unfold bestCos
    rw [vs_one, vs_one, vs_one]
    simp [Matrix.one_apply, Fin.ext_iff]

/-- C2: `_is_oblique A thres` holds iff the minimum obliquity angle of `A`
in degrees exceeds `thres`; the threshold constant is 0.01 degrees; and the
identity affine is not oblique.  `_is_oblique` is a plain function of the
affine (and threshold) by construction, so purity is definitional. -/
theorem claim_C2 :
    (∀ (A : Mat4R) (thres : ℝ),
      _is_oblique A thres ↔ minObliquityAngleDeg A > thres) ∧
    OBLIQUITY_THRESHOLD_DEG = 1 / 100 ∧
    ¬ _is_oblique (1 : Mat4R) OBLIQUITY_THRESHOLD_DEG := by
  refine ⟨fun A thres => Iff.rfl, by norm_num [OBLIQUITY_THRESHOLD_DEG], ?_⟩
  have hob : ∀ i : Fin 3, obliquity (1 : Mat4R) i = 0 := by
    intro i
    unfold obliquity
    rw [bestCos_one]
    exact Real.arccos_one
  have hmin : obliquityMin (1 : Mat4R) = 0 := by
    unfold obliquityMin
    rw [hob, hob, hob]
    simp
  unfold _is_oblique
  rw [hmin]
  norm_num [OBLIQUITY_THRESHOLD_DEG]

/-! ## Claim C8: the warpdrive (de-obliquing) affine -/

/-- Helper: a best-cosine below `√3/2` forces an angle above `π/6`. -/
theorem arccos_gt_pi_div_six {b : ℝ} (hb0 : 0 ≤ b) (hb : b < Real.sqrt 3 / 2) :
    Real.pi / 6 < Real.arccos b := by
  by_contra hle
  push_neg at hle
  have hs3 : Real.sqrt 3 < 2 := by
    rw [Real.sqrt_lt' (by norm_num)]
    norm_num
  have hb1 : b ≤ 1 := le_of_lt (lt_of_lt_of_le hb (by linarith))
  have h1 : Real.cos (Real.pi / 6) ≤ Real.cos (Real.arccos b) :=
    Real.cos_le_cos_of_nonneg_of_le_pi (Real.arccos_nonneg b)
      (by linarith [Real.pi_pos]) hle
  rw [Real.cos_arccos (by linarith) hb1, Real.cos_pi_div_six] at h1
  linarith

/-- Helper: if every row's best cosine is below `√3/2` (and nonnegative),
the affine is oblique for the fixed threshold. -/
theorem oblique_of_bestCos_lt (A : Mat4R)
    (h : ∀ i : Fin 3, 0 ≤ bestCos A i ∧ bestCos A i < Real.sqrt 3 / 2) :
    _is_oblique A OBLIQUITY_THRESHOLD_DEG := by
  have hm : Real.pi / 6 < obliquityMin A := by
    unfold obliquityMin obliquity
    exact lt_min (lt_min (arccos_gt_pi_div_six (h 0).1 (h 0).2)
      (arccos_gt_pi_div_six (h 1).1 (h 1).2)) (arccos_gt_pi_div_six (h 2).1 (h 2).2)
  show obliquityMin A * 180 / Real.pi > 0.01
  have hpi := Real.pi_pos
  have h30 : Real.pi / 6 * 180 / Real.pi = 30 := by
    field_simp
    ring
  have hmul : Real.pi / 6 * 180 / Real.pi < obliquityMin A * 180 / Real.pi := by
    rw [div_lt_div_iff_of_pos_right hpi]
    exact mul_lt_mul_of_pos_right hm (by norm_num)
  linarith

theorem LPSR_mul_LPSR : LPSR * LPSR = 1 := by
  ext i j
  fin_cases i <;> fin_cases j <;>
    simp [LPSR, Matrix.mul_apply, Fin.sum_univ_four, Matrix.diagonal, Matrix.one_apply]

theorem LPSR_det : LPSR.det = 1 := by
  rw [LPSR, Matrix.det_diagonal]
  simp [Fin.prod_univ_four]

theorem plumbAff_entry (O : Mat4R) (s : Fin 3 → ℕ) (i j : Fin 3) :
    plumbAff O s i.castSucc j.castSucc = plumbR O i j := by
  have hic : ((i.castSucc : Fin 4) : ℕ) < 3 := i.isLt
  have hjc : ((j.castSucc : Fin 4) : ℕ) < 3 := j.isLt
  show (if ((i.castSucc : Fin 4) : ℕ) < 3 ∧ ((j.castSucc : Fin 4) : ℕ) = 3 then _ else _) = _
  rw [if_neg (by omega)]
  show (if hi : ((i.castSucc : Fin 4) : ℕ) < 3 then
      (if hj : ((j.castSucc : Fin 4) : ℕ) < 3 then plumbR O ⟨_, hi⟩ ⟨_, hj⟩ else 0)
    else _) = _
  rw [dif_pos hic, dif_pos hjc]
  congr 1 <;> exact Fin.ext rfl

theorem centerVec_last (s : Fin 3 → ℕ) : centerVec s 3 = 1 := by
  unfold centerVec
  rw [dif_neg (by decide)]

theorem plumb0_col3 (O : Mat4R) (i : Fin 4) (hi : (i : ℕ) < 3) : plumb0 O i 3 = 0 := by
  show (if h : (i : ℕ) < 3 then _ else _) = 0
  rw [dif_pos hi]
  show (if h : ((3 : Fin 4) : ℕ) < 3 then _ else (0 : ℝ)) = 0
  rw [dif_neg (by decide)]

theorem plumbAff_block (O : Mat4R) (s : Fin 3 → ℕ) (i j : Fin 4)
    (hi : (i : ℕ) < 3) (hj : (j : ℕ) < 3) : plumbAff O s i j = plumb0 O i j := by
  show (if (i : ℕ) < 3 ∧ (j : ℕ) = 3 then _ else plumb0 O i j) = _
  rw [if_neg (by omega)]

theorem plumbAff_col3 (O : Mat4R) (s : Fin 3 → ℕ) (i : Fin 4) (hi : (i : ℕ) < 3) :
    plumbAff O s i 3 =
      O.mulVec (centerVec s) i - (plumb0 O).mulVec (centerVec s) i := by
  show (if (i : ℕ) < 3 ∧ ((3 : Fin 4) : ℕ) = 3 then
    O.mulVec (centerVec s) i - (plumb0 O).mulVec (centerVec s) i else _) = _
  rw [if_pos ⟨hi, by decide⟩]

theorem plumbAff_row3 (O : Mat4R) (s : Fin 3 → ℕ) (j : Fin 4) :
    plumbAff O s 3 j = if (j : ℕ) = 3 then 1 else 0 := by
  simp only [plumbAff, plumb0, Matrix.of_apply]
  rw [if_neg fun h => absurd h.1 (by decide), dif_neg (by decide)]

/-- C8 (amended): for an affine `O` with homogeneous bottom row, invertible
and oblique, and whose derived plumb affine is itself invertible,
`_afni_warpdrive` (1) zeroes sub-dominant rotation entries and scales the
dominant ones by `entry/colmax * voxel_size`, (2) maps the grid centre to the
same world point through the plumb affine as through `O`, (3) returns
mutually inverse matrices for `forward=True`/`False`, and (4) conjugates by
the LPS sign-flip exactly when `ras` is false.  The plumb-invertibility
proviso is the amendment: without it the `forward=False` branch inverts a
singular matrix (see the counterexample). -/
theorem claim_C8 (O : Mat4R) (s : Fin 3 → ℕ)
    (hbot : ∀ j : Fin 4, O 3 j = if j = 3 then 1 else 0)
    (hdet : O.det ≠ 0)
    (hobl : _is_oblique O OBLIQUITY_THRESHOLD_DEG)
    (hpl : (plumbAff O s).det ≠ 0) :
    (∀ (i j : Fin 3),
        (|O i.castSucc j.castSucc / colMaxAbs O j| < 1 →
          plumbAff O s i.castSucc j.castSucc = 0) ∧
        (¬ |O i.castSucc j.castSucc / colMaxAbs O j| < 1 →
          plumbAff O s i.castSucc j.castSucc =
            O i.castSucc j.castSucc / colMaxAbs O j * voxel_sizes O j)) ∧
    (plumbAff O s).mulVec (centerVec s) = O.mulVec (centerVec s) ∧
    (∀ r : Bool,
        _afni_warpdrive O s true r * _afni_warpdrive O s false r = 1) ∧
    (∀ f : Bool,
        _afni_warpdrive O s f false = LPSR * _afni_warpdrive O s f true * LPSR) := by
  refine ⟨?_, ?_, ?_, ?_⟩
  · intro i j
    constructor
    · intro hlt
      rw [plumbAff_entry, plumbR, if_pos hlt, zero_mul]
    · intro hge
      rw [plumbAff_entry, plumbR, if_neg hge]
  · have hc3 := centerVec_last s
    have hplumb0_3 := plumb0_col3 O
    have hPj := plumbAff_block O s
    have hP3 := plumbAff_col3 O s
    have hProw3 := plumbAff_row3 O s
    funext i
    by_cases hi : (i : ℕ) < 3
    · have e1 : (plumbAff O s).mulVec (centerVec s) i =
          plumbAff O s i 0 * centerVec s 0 + plumbAff O s i 1 * centerVec s 1 +
          plumbAff O s i 2 * centerVec s 2 + plumbAff O s i 3 * centerVec s 3 := by
        simp [Matrix.mulVec, Matrix.dotProduct, Fin.sum_univ_four]
      have e2 : (plumb0 O).mulVec (centerVec s) i =
          plumb0 O i 0 * centerVec s 0 + plumb0 O i 1 * centerVec s 1 +
          plumb0 O i 2 * centerVec s 2 + plumb0 O i 3 * centerVec s 3 := by
        simp [Matrix.mulVec, Matrix.dotProduct, Fin.sum_univ_four]
      rw [e1, hPj i 0 hi (by decide), hPj i 1 hi (by decide), hPj i 2 hi (by decide),
        hP3 i hi, hc3, e2, hplumb0_3 i hi]
      ring
    · have hi3 : i = 3 := by
        apply Fin.ext
        show (i : ℕ) = 3
        omega
      subst hi3
      have e1 : (plumbAff O s).mulVec (centerVec s) 3 =
          plumbAff O s 3 0 * centerVec s 0 + plumbAff O s 3 1 * centerVec s 1 +
          plumbAff O s 3 2 * centerVec s 2 + plumbAff O s 3 3 * centerVec s 3 := by
        simp [Matrix.mulVec, Matrix.dotProduct, Fin.sum_univ_four]
      have e3 : O.mulVec (centerVec s) 3 =
          O 3 0 * centerVec s 0 + O 3 1 * centerVec s 1 +
          O 3 2 * centerVec s 2 + O 3 3 * centerVec s 3 := by
        simp [Matrix.mulVec, Matrix.dotProduct, Fin.sum_univ_four]
      rw [e1, e3, hProw3 0, hProw3 1, hProw3 2, hProw3 3, hbot 0, hbot 1, hbot 2, hbot 3,
        hc3]
      simp
      decide
  · intro r
    have hR0 : (plumbAff O s * O⁻¹).det ≠ 0 := by
      rw [Matrix.det_mul, Matrix.det_nonsing_inv, Ring.inverse_eq_inv']
      exact mul_ne_zero hpl (inv_ne_zero hdet)
    cases r with
    | true =>
        show (plumbAff O s * O⁻¹) * (plumbAff O s * O⁻¹)⁻¹ = 1
        exact Matrix.mul_nonsing_inv _ (isUnit_iff_ne_zero.mpr hR0)
    | false =>
        show (LPSR * (plumbAff O s * O⁻¹) * LPSR) *
          (LPSR * (plumbAff O s * O⁻¹) * LPSR)⁻¹ = 1
        apply Matrix.mul_nonsing_inv
        apply isUnit_iff_ne_zero.mpr
        rw [Matrix.det_mul, Matrix.det_mul, LPSR_det, mul_one, one_mul]
        exact hR0
  · intro f
    have hLinv : LPSR⁻¹ = LPSR := Matrix.inv_eq_right_inv LPSR_mul_LPSR
    cases f with
    | true => rfl
    | false =>
        show (LPSR * (plumbAff O s * O⁻¹) * LPSR)⁻¹ =
          LPSR * (plumbAff O s * O⁻¹)⁻¹ * LPSR
        rw [Matrix.mul_inv_rev, Matrix.mul_inv_rev, hLinv]
        exact (Matrix.mul_assoc _ _ _).symm

theorem wvs0 : voxel_sizes wO8 0 = 7 := by
  show Real.sqrt ((2:ℝ)^2 + (3:ℝ)^2 + (6:ℝ)^2) = 7
  rw [show ((2:ℝ)^2 + (3:ℝ)^2 + (6:ℝ)^2) = 7^2 by norm_num,
    Real.sqrt_sq (by norm_num : (0:ℝ) ≤ 7)]

theorem wvs1 : voxel_sizes wO8 1 = 7 := by
  show Real.sqrt ((3:ℝ)^2 + (-6:ℝ)^2 + (2:ℝ)^2) = 7
  rw [show ((3:ℝ)^2 + (-6:ℝ)^2 + (2:ℝ)^2) = 7^2 by norm_num,
    Real.sqrt_sq (by norm_num : (0:ℝ) ≤ 7)]

theorem wvs2 : voxel_sizes wO8 2 = 7 := by
  show Real.sqrt ((6:ℝ)^2 + (2:ℝ)^2 + (-3:ℝ)^2) = 7
  rw [show ((6:ℝ)^2 + (2:ℝ)^2 + (-3:ℝ)^2) = 7^2 by norm_num,
    Real.sqrt_sq (by norm_num : (0:ℝ) ≤ 7)]

theorem wcm0 : colMaxAbs wO8 0 = 6 := by
  show max (max |(2:ℝ)| |(3:ℝ)|) |(6:ℝ)| = 6
  norm_num

theorem wcm1 : colMaxAbs wO8 1 = 6 := by
  show max (max |(3:ℝ)| |(-6:ℝ)|) |(2:ℝ)| = 6
  norm_num

theorem wcm2 : colMaxAbs wO8 2 = 6 := by
  show max (max |(6:ℝ)| |(2:ℝ)|) |(-3:ℝ)| = 6
  norm_num

theorem wbc8 : ∀ i : Fin 3, 0 ≤ bestCos wO8 i ∧ bestCos wO8 i < Real.sqrt 3 / 2 := by
  have h127 : (12:ℝ)/7 < Real.sqrt 3 := by
    rw [Real.lt_sqrt (by norm_num)]
    norm_num
  have hlt : ∀ x : ℝ, |x| ≤ 6 → |x/7| < Real.sqrt 3 / 2 := by
    intro x hx
    rw [abs_div, show |(7:ℝ)| = 7 by norm_num]
    linarith
  intro i
  refine ⟨le_trans (abs_nonneg _) (le_max_right _ _), ?_⟩
  fin_cases i
  · unfold bestCos
    rw [wvs0, wvs1, wvs2]
    show max (max |(2:ℝ)/7| |(3:ℝ)/7|) |(6:ℝ)/7| < Real.sqrt 3 / 2
    exact max_lt (max_lt (hlt 2 (by norm_num)) (hlt 3 (by norm_num))) (hlt 6 (by norm_num))
  · unfold bestCos
    rw [wvs0, wvs1, wvs2]
    show max (max |(3:ℝ)/7| |(-6:ℝ)/7|) |(2:ℝ)/7| < Real.sqrt 3 / 2
    exact max_lt (max_lt (hlt 3 (by norm_num)) (hlt (-6) (by norm_num)))
      (hlt 2 (by norm_num))
  · unfold bestCos
    rw [wvs0, wvs1, wvs2]
    show max (max |(6:ℝ)/7| |(2:ℝ)/7|) |(-3:ℝ)/7| < Real.sqrt 3 / 2
    exact max_lt (max_lt (hlt 6 (by norm_num)) (hlt 2 (by norm_num)))
      (hlt (-3) (by norm_num))

theorem wPmat : plumbAff wO8 wS8 = wP8 := by
  have hcv0 : centerVec wS8 0 = 0 := by
    show ((0 : ℕ) : ℝ) / 2 = 0
    norm_num
  have hcv1 : centerVec wS8 1 = 0 := by
    show ((0 : ℕ) : ℝ) / 2 = 0
    norm_num
  have hcv2 : centerVec wS8 2 = 0 := by
    show ((0 : ℕ) : ℝ) / 2 = 0
    norm_num
  have hmul0 : ∀ (M : Mat4R) (i : Fin 4), M.mulVec (centerVec wS8) i = M i 3 := by
    intro M i
    have e : M.mulVec (centerVec wS8) i =
        M i 0 * centerVec wS8 0 + M i 1 * centerVec wS8 1 +
        M i 2 * centerVec wS8 2 + M i 3 * centerVec wS8 3 := by
      simp [Matrix.mulVec, Matrix.dotProduct, Fin.sum_univ_four]
    rw [e, hcv0, hcv1, hcv2, centerVec_last wS8]
    ring
  have hcol3 : ∀ i : Fin 4, (i : ℕ) < 3 → plumbAff wO8 wS8 i 3 = wO8 i 3 := by
    intro i hi
    rw [plumbAff_col3 wO8 wS8 i hi, hmul0, hmul0, plumb0_col3 wO8 i hi, sub_zero]
  ext i j
  fin_cases i <;> fin_cases j
  · show plumbAff wO8 wS8 (Fin.castSucc 0) (Fin.castSucc 0) = (0 : ℝ)
    rw [plumbAff_entry wO8 wS8 0 0]
    unfold plumbR
    rw [wcm0, wvs0]
    show (if |(2 : ℝ)/6| < 1 then (0 : ℝ) else (2 : ℝ)/6) * 7 = (0 : ℝ)
    rw [if_pos (by rw [abs_div]; norm_num)]
    norm_num
  · show plumbAff wO8 wS8 (Fin.castSucc 0) (Fin.castSucc 1) = (0 : ℝ)
    rw [plumbAff_entry wO8 wS8 0 1]
    unfold plumbR
    rw [wcm1, wvs1]
    show (if |(3 : ℝ)/6| < 1 then (0 : ℝ) else (3 : ℝ)/6) * 7 = (0 : ℝ)
    rw [if_pos (by rw [abs_div]; norm_num)]
    norm_num
  · show plumbAff wO8 wS8 (Fin.castSucc 0) (Fin.castSucc 2) = (7 : ℝ)
    rw [plumbAff_entry wO8 wS8 0 2]
    unfold plumbR
    rw [wcm2, wvs2]
    show (if |(6 : ℝ)/6| < 1 then (0 : ℝ) else (6 : ℝ)/6) * 7 = (7 : ℝ)
    rw [if_neg (by norm_num)]
    norm_num
  · show plumbAff wO8 wS8 (Fin.castSucc 0) 3 = (0 : ℝ)
    rw [hcol3 (Fin.castSucc 0) (by decide)]
    rfl
  · show plumbAff wO8 wS8 (Fin.castSucc 1) (Fin.castSucc 0) = (0 : ℝ)
    rw [plumbAff_entry wO8 wS8 1 0]
    unfold plumbR
    rw [wcm0, wvs0]
    show (if |(3 : ℝ)/6| < 1 then (0 : ℝ) else (3 : ℝ)/6) * 7 = (0 : ℝ)
    rw [if_pos (by rw [abs_div]; norm_num)]
    norm_num
  · show plumbAff wO8 wS8 (Fin.castSucc 1) (Fin.castSucc 1) = (-7 : ℝ)
    rw [plumbAff_entry wO8 wS8 1 1]
    unfold plumbR
    rw [wcm1, wvs1]
    show (if |(-6 : ℝ)/6| < 1 then (0 : ℝ) else (-6 : ℝ)/6) * 7 = (-7 : ℝ)
    rw [if_neg (by norm_num)]
    norm_num
  · show plumbAff wO8 wS8 (Fin.castSucc 1) (Fin.castSucc 2) = (0 : ℝ)
    rw [plumbAff_entry wO8 wS8 1 2]
    unfold plumbR
    rw [wcm2, wvs2]
    show (if |(2 : ℝ)/6| < 1 then (0 : ℝ) else (2 : ℝ)/6) * 7 = (0 : ℝ)
    rw [if_pos (by rw [abs_div]; norm_num)]
    norm_num
  · show plumbAff wO8 wS8 (Fin.castSucc 1) 3 = (0 : ℝ)
    rw [hcol3 (Fin.castSucc 1) (by decide)]
    rfl
  · show plumbAff wO8 wS8 (Fin.castSucc 2) (Fin.castSucc 0) = (7 : ℝ)
    rw [plumbAff_entry wO8 wS8 2 0]
    unfold plumbR
    rw [wcm0, wvs0]
    show (if |(6 : ℝ)/6| < 1 then (0 : ℝ) else (6 : ℝ)/6) * 7 = (7 : ℝ)
    rw [if_neg (by norm_num)]
    norm_num
  · show plumbAff wO8 wS8 (Fin.castSucc 2) (Fin.castSucc 1) = (0 : ℝ)
    rw [plumbAff_entry wO8 wS8 2 1]
    unfold plumbR
    rw [wcm1, wvs1]
    show (if |(2 : ℝ)/6| < 1 then (0 : ℝ) else (2 : ℝ)/6) * 7 = (0 : ℝ)
    rw [if_pos (by rw [abs_div]; norm_num)]
    norm_num
  · show plumbAff wO8 wS8 (Fin.castSucc 2) (Fin.castSucc 2) = (0 : ℝ)
    rw [plumbAff_entry wO8 wS8 2 2]
    unfold plumbR
    rw [wcm2, wvs2]
    show (if |(-3 : ℝ)/6| < 1 then (0 : ℝ) else (-3 : ℝ)/6) * 7 = (0 : ℝ)
    rw [if_pos (by rw [abs_div]; norm_num)]
    norm_num
  · show plumbAff wO8 wS8 (Fin.castSucc 2) 3 = (0 : ℝ)
    rw [hcol3 (Fin.castSucc 2) (by decide)]
    rfl
  · show plumbAff wO8 wS8 3 0 = (0 : ℝ)
    rw [plumbAff_row3 wO8 wS8 0]
    rfl
  · show plumbAff wO8 wS8 3 1 = (0 : ℝ)
    rw [plumbAff_row3 wO8 wS8 1]
    rfl
  · show plumbAff wO8 wS8 3 2 = (0 : ℝ)
    rw [plumbAff_row3 wO8 wS8 2]
    rfl
  · show plumbAff wO8 wS8 3 3 = (1 : ℝ)
    rw [plumbAff_row3 wO8 wS8 3]
    rfl

theorem det_ne_zero_of_right_inv {A B : Mat4R} (h : A * B = 1) : A.det ≠ 0 := by
  intro h0
  have hd := congrArg Matrix.det h
  rw [Matrix.det_mul, Matrix.det_one, h0, zero_mul] at hd
  exact zero_ne_one hd

theorem wOprod : wO8 * wO8inv = 1 := by
  ext i j
  fin_cases i <;> fin_cases j
  · rw [Matrix.mul_apply, Fin.sum_univ_four]
    show (2 : ℝ) * ((2 : ℝ)/49) + (3 : ℝ) * ((3 : ℝ)/49) + (6 : ℝ) * ((6 : ℝ)/49) + (0 : ℝ) * (0 : ℝ) = (1 : ℝ)
    norm_num
  · rw [Matrix.mul_apply, Fin.sum_univ_four]
    show (2 : ℝ) * ((3 : ℝ)/49) + (3 : ℝ) * ((-6 : ℝ)/49) + (6 : ℝ) * ((2 : ℝ)/49) + (0 : ℝ) * (0 : ℝ) = (0 : ℝ)
    norm_num
  · rw [Matrix.mul_apply, Fin.sum_univ_four]
    show (2 : ℝ) * ((6 : ℝ)/49) + (3 : ℝ) * ((2 : ℝ)/49) + (6 : ℝ) * ((-3 : ℝ)/49) + (0 : ℝ) * (0 : ℝ) = (0 : ℝ)
    norm_num
  · rw [Matrix.mul_apply, Fin.sum_univ_four]
    show (2 : ℝ) * (0 : ℝ) + (3 : ℝ) * (0 : ℝ) + (6 : ℝ) * (0 : ℝ) + (0 : ℝ) * (1 : ℝ) = (0 : ℝ)
    norm_num
  · rw [Matrix.mul_apply, Fin.sum_univ_four]
    show (3 : ℝ) * ((2 : ℝ)/49) + ((-6) : ℝ) * ((3 : ℝ)/49) + (2 : ℝ) * ((6 : ℝ)/49) + (0 : ℝ) * (0 : ℝ) = (0 : ℝ)
    norm_num
  · rw [Matrix.mul_apply, Fin.sum_univ_four]
    show (3 : ℝ) * ((3 : ℝ)/49) + ((-6) : ℝ) * ((-6 : ℝ)/49) + (2 : ℝ) * ((2 : ℝ)/49) + (0 : ℝ) * (0 : ℝ) = (1 : ℝ)
    norm_num
  · rw [Matrix.mul_apply, Fin.sum_univ_four]
    show (3 : ℝ) * ((6 : ℝ)/49) + ((-6) : ℝ) * ((2 : ℝ)/49) + (2 : ℝ) * ((-3 : ℝ)/49) + (0 : ℝ) * (0 : ℝ) = (0 : ℝ)
    norm_num
  · rw [Matrix.mul_apply, Fin.sum_univ_four]
    show (3 : ℝ) * (0 : ℝ) + ((-6) : ℝ) * (0 : ℝ) + (2 : ℝ) * (0 : ℝ) + (0 : ℝ) * (1 : ℝ) = (0 : ℝ)
    norm_num
  · rw [Matrix.mul_apply, Fin.sum_univ_four]
    show (6 : ℝ) * ((2 : ℝ)/49) + (2 : ℝ) * ((3 : ℝ)/49) + ((-3) : ℝ) * ((6 : ℝ)/49) + (0 : ℝ) * (0 : ℝ) = (0 : ℝ)
    norm_num
  · rw [Matrix.mul_apply, Fin.sum_univ_four]
    show (6 : ℝ) * ((3 : ℝ)/49) + (2 : ℝ) * ((-6 : ℝ)/49) + ((-3) : ℝ) * ((2 : ℝ)/49) + (0 : ℝ) * (0 : ℝ) = (0 : ℝ)
    norm_num
  · rw [Matrix.mul_apply, Fin.sum_univ_four]
    show (6 : ℝ) * ((6 : ℝ)/49) + (2 : ℝ) * ((2 : ℝ)/49) + ((-3) : ℝ) * ((-3 : ℝ)/49) + (0 : ℝ) * (0 : ℝ) = (1 : ℝ)
    norm_num
  · rw [Matrix.mul_apply, Fin.sum_univ_four]
    show (6 : ℝ) * (0 : ℝ) + (2 : ℝ) * (0 : ℝ) + ((-3) : ℝ) * (0 : ℝ) + (0 : ℝ) * (1 : ℝ) = (0 : ℝ)
    norm_num
  · rw [Matrix.mul_apply, Fin.sum_univ_four]
    show (0 : ℝ) * ((2 : ℝ)/49) + (0 : ℝ) * ((3 : ℝ)/49) + (0 : ℝ) * ((6 : ℝ)/49) + (1 : ℝ) * (0 : ℝ) = (0 : ℝ)
    norm_num
  · rw [Matrix.mul_apply, Fin.sum_univ_four]
    show (0 : ℝ) * ((3 : ℝ)/49) + (0 : ℝ) * ((-6 : ℝ)/49) + (0 : ℝ) * ((2 : ℝ)/49) + (1 : ℝ) * (0 : ℝ) = (0 : ℝ)
    norm_num
  · rw [Matrix.mul_apply, Fin.sum_univ_four]
    show (0 : ℝ) * ((6 : ℝ)/49) + (0 : ℝ) * ((2 : ℝ)/49) + (0 : ℝ) * ((-3 : ℝ)/49) + (1 : ℝ) * (0 : ℝ) = (0 : ℝ)
    norm_num
  · rw [Matrix.mul_apply, Fin.sum_univ_four]
    show (0 : ℝ) * (0 : ℝ) + (0 : ℝ) * (0 : ℝ) + (0 : ℝ) * (0 : ℝ) + (1 : ℝ) * (1 : ℝ) = (1 : ℝ)
    norm_num

theorem wPprod : wP8 * wP8inv = 1 := by
  ext i j
  fin_cases i <;> fin_cases j
  · rw [Matrix.mul_apply, Fin.sum_univ_four]
    show (0 : ℝ) * (0 : ℝ) + (0 : ℝ) * (0 : ℝ) + (7 : ℝ) * ((1 : ℝ)/7) + (0 : ℝ) * (0 : ℝ) = (1 : ℝ)
    norm_num
  · rw [Matrix.mul_apply, Fin.sum_univ_four]
    show (0 : ℝ) * (0 : ℝ) + (0 : ℝ) * ((-1 : ℝ)/7) + (7 : ℝ) * (0 : ℝ) + (0 : ℝ) * (0 : ℝ) = (0 : ℝ)
    norm_num
  · rw [Matrix.mul_apply, Fin.sum_univ_four]
    show (0 : ℝ) * ((1 : ℝ)/7) + (0 : ℝ) * (0 : ℝ) + (7 : ℝ) * (0 : ℝ) + (0 : ℝ) * (0 : ℝ) = (0 : ℝ)
    norm_num
  · rw [Matrix.mul_apply, Fin.sum_univ_four]
    show (0 : ℝ) * (0 : ℝ) + (0 : ℝ) * (0 : ℝ) + (7 : ℝ) * (0 : ℝ) + (0 : ℝ) * (1 : ℝ) = (0 : ℝ)
    norm_num
  · rw [Matrix.mul_apply, Fin.sum_univ_four]
    show (0 : ℝ) * (0 : ℝ) + ((-7) : ℝ) * (0 : ℝ) + (0 : ℝ) * ((1 : ℝ)/7) + (0 : ℝ) * (0 : ℝ) = (0 : ℝ)
    norm_num
  · rw [Matrix.mul_apply, Fin.sum_univ_four]
    show (0 : ℝ) * (0 : ℝ) + ((-7) : ℝ) * ((-1 : ℝ)/7) + (0 : ℝ) * (0 : ℝ) + (0 : ℝ) * (0 : ℝ) = (1 : ℝ)
    norm_num
  · rw [Matrix.mul_apply, Fin.sum_univ_four]
    show (0 : ℝ) * ((1 : ℝ)/7) + ((-7) : ℝ) * (0 : ℝ) + (0 : ℝ) * (0 : ℝ) + (0 : ℝ) * (0 : ℝ) = (0 : ℝ)
    norm_num
  · rw [Matrix.mul_apply, Fin.sum_univ_four]
    show (0 : ℝ) * (0 : ℝ) + ((-7) : ℝ) * (0 : ℝ) + (0 : ℝ) * (0 : ℝ) + (0 : ℝ) * (1 : ℝ) = (0 : ℝ)
    norm_num
  · rw [Matrix.mul_apply, Fin.sum_univ_four]
    show (7 : ℝ) * (0 : ℝ) + (0 : ℝ) * (0 : ℝ) + (0 : ℝ) * ((1 : ℝ)/7) + (0 : ℝ) * (0 : ℝ) = (0 : ℝ)
    norm_num
  · rw [Matrix.mul_apply, Fin.sum_univ_four]
    show (7 : ℝ) * (0 : ℝ) + (0 : ℝ) * ((-1 : ℝ)/7) + (0 : ℝ) * (0 : ℝ) + (0 : ℝ) * (0 : ℝ) = (0 : ℝ)
    norm_num
  · rw [Matrix.mul_apply, Fin.sum_univ_four]
    show (7 : ℝ) * ((1 : ℝ)/7) + (0 : ℝ) * (0 : ℝ) + (0 : ℝ) * (0 : ℝ) + (0 : ℝ) * (0 : ℝ) = (1 : ℝ)
    norm_num
  · rw [Matrix.mul_apply, Fin.sum_univ_four]
    show (7 : ℝ) * (0 : ℝ) + (0 : ℝ) * (0 : ℝ) + (0 : ℝ) * (0 : ℝ) + (0 : ℝ) * (1 : ℝ) = (0 : ℝ)
    norm_num
  · rw [Matrix.mul_apply, Fin.sum_univ_four]
    show (0 : ℝ) * (0 : ℝ) + (0 : ℝ) * (0 : ℝ) + (0 : ℝ) * ((1 : ℝ)/7) + (1 : ℝ) * (0 : ℝ) = (0 : ℝ)
    norm_num
  · rw [Matrix.mul_apply, Fin.sum_univ_four]
    show (0 : ℝ) * (0 : ℝ) + (0 : ℝ) * ((-1 : ℝ)/7) + (0 : ℝ) * (0 : ℝ) + (1 : ℝ) * (0 : ℝ) = (0 : ℝ)
    norm_num
  · rw [Matrix.mul_apply, Fin.sum_univ_four]
    show (0 : ℝ) * ((1 : ℝ)/7) + (0 : ℝ) * (0 : ℝ) + (0 : ℝ) * (0 : ℝ) + (1 : ℝ) * (0 : ℝ) = (0 : ℝ)
    norm_num
  · rw [Matrix.mul_apply, Fin.sum_univ_four]
    show (0 : ℝ) * (0 : ℝ) + (0 : ℝ) * (0 : ℝ) + (0 : ℝ) * (0 : ℝ) + (1 : ℝ) * (1 : ℝ) = (1 : ℝ)
    norm_num

theorem wOdet : wO8.det ≠ 0 := det_ne_zero_of_right_inv wOprod

theorem wPdet : (plumbAff wO8 wS8).det ≠ 0 := by
  rw [wPmat]
  exact det_ne_zero_of_right_inv wPprod

theorem wbot8 : ∀ j : Fin 4, wO8 3 j = if j = 3 then 1 else 0 := by
  intro j
  fin_cases j <;> rfl

theorem wobl8 : _is_oblique wO8 OBLIQUITY_THRESHOLD_DEG :=
  oblique_of_bestCos_lt wO8 wbc8

/-- C8 witness: the scaled rotation `[[2,3,6],[3,-6,2],[6,2,-3]]/7` (voxel
size 7, all best cosines `6/7 < cos 30°`) is oblique and invertible, its
plumb affine is invertible, and all four conclusions hold. -/
theorem claim_C8_witness :
    ((∀ j : Fin 4, wO8 3 j = if j = 3 then 1 else 0) ∧
      wO8.det ≠ 0 ∧
      _is_oblique wO8 OBLIQUITY_THRESHOLD_DEG ∧
      (plumbAff wO8 wS8).det ≠ 0) ∧
    (∀ r : Bool, _afni_warpdrive wO8 wS8 true r * _afni_warpdrive wO8 wS8 false r = 1) ∧
    (∀ f : Bool, _afni_warpdrive wO8 wS8 f false =
      LPSR * _afni_warpdrive wO8 wS8 f true * LPSR) :=
  ⟨⟨wbot8, wOdet, wobl8, wPdet⟩,
    (claim_C8 wO8 wS8 wbot8 wOdet wobl8 wPdet).2.2.1,
    (claim_C8 wO8 wS8 wbot8 wOdet wobl8 wPdet).2.2.2⟩

theorem cOprod : cO8 * cO8inv = 1 := by
  ext i j
  fin_cases i <;> fin_cases j
  · rw [Matrix.mul_apply, Fin.sum_univ_four]
    show (10 : ℝ) * ((1 : ℝ)/20) + (10 : ℝ) * ((1 : ℝ)/20) + (6 : ℝ) * (0 : ℝ) + (0 : ℝ) * (0 : ℝ) = (1 : ℝ)
    norm_num
  · rw [Matrix.mul_apply, Fin.sum_univ_four]
    show (10 : ℝ) * ((1 : ℝ)/18) + (10 : ℝ) * ((-1 : ℝ)/18) + (6 : ℝ) * (0 : ℝ) + (0 : ℝ) * (0 : ℝ) = (0 : ℝ)
    norm_num
  · rw [Matrix.mul_apply, Fin.sum_univ_four]
    show (10 : ℝ) * ((37 : ℝ)/270) + (10 : ℝ) * ((17 : ℝ)/270) + (6 : ℝ) * ((-1 : ℝ)/3) + (0 : ℝ) * (0 : ℝ) = (0 : ℝ)
    norm_num
  · rw [Matrix.mul_apply, Fin.sum_univ_four]
    show (10 : ℝ) * (0 : ℝ) + (10 : ℝ) * (0 : ℝ) + (6 : ℝ) * (0 : ℝ) + (0 : ℝ) * (1 : ℝ) = (0 : ℝ)
    norm_num
  · rw [Matrix.mul_apply, Fin.sum_univ_four]
    show (9 : ℝ) * ((1 : ℝ)/20) + ((-9) : ℝ) * ((1 : ℝ)/20) + (2 : ℝ) * (0 : ℝ) + (0 : ℝ) * (0 : ℝ) = (0 : ℝ)
    norm_num
  · rw [Matrix.mul_apply, Fin.sum_univ_four]
    show (9 : ℝ) * ((1 : ℝ)/18) + ((-9) : ℝ) * ((-1 : ℝ)/18) + (2 : ℝ) * (0 : ℝ) + (0 : ℝ) * (0 : ℝ) = (1 : ℝ)
    norm_num
  · rw [Matrix.mul_apply, Fin.sum_univ_four]
    show (9 : ℝ) * ((37 : ℝ)/270) + ((-9) : ℝ) * ((17 : ℝ)/270) + (2 : ℝ) * ((-1 : ℝ)/3) + (0 : ℝ) * (0 : ℝ) = (0 : ℝ)
    norm_num
  · rw [Matrix.mul_apply, Fin.sum_univ_four]
    show (9 : ℝ) * (0 : ℝ) + ((-9) : ℝ) * (0 : ℝ) + (2 : ℝ) * (0 : ℝ) + (0 : ℝ) * (1 : ℝ) = (0 : ℝ)
    norm_num
  · rw [Matrix.mul_apply, Fin.sum_univ_four]
    show (0 : ℝ) * ((1 : ℝ)/20) + (0 : ℝ) * ((1 : ℝ)/20) + ((-3) : ℝ) * (0 : ℝ) + (0 : ℝ) * (0 : ℝ) = (0 : ℝ)
    norm_num
  · rw [Matrix.mul_apply, Fin.sum_univ_four]
    show (0 : ℝ) * ((1 : ℝ)/18) + (0 : ℝ) * ((-1 : ℝ)/18) + ((-3) : ℝ) * (0 : ℝ) + (0 : ℝ) * (0 : ℝ) = (0 : ℝ)
    norm_num
  · rw [Matrix.mul_apply, Fin.sum_univ_four]
    show (0 : ℝ) * ((37 : ℝ)/270) + (0 : ℝ) * ((17 : ℝ)/270) + ((-3) : ℝ) * ((-1 : ℝ)/3) + (0 : ℝ) * (0 : ℝ) = (1 : ℝ)
    norm_num
  · rw [Matrix.mul_apply, Fin.sum_univ_four]
    show (0 : ℝ) * (0 : ℝ) + (0 : ℝ) * (0 : ℝ) + ((-3) : ℝ) * (0 : ℝ) + (0 : ℝ) * (1 : ℝ) = (0 : ℝ)
    norm_num
  · rw [Matrix.mul_apply, Fin.sum_univ_four]
    show (0 : ℝ) * ((1 : ℝ)/20) + (0 : ℝ) * ((1 : ℝ)/20) + (0 : ℝ) * (0 : ℝ) + (1 : ℝ) * (0 : ℝ) = (0 : ℝ)
    norm_num
  · rw [Matrix.mul_apply, Fin.sum_univ_four]
    show (0 : ℝ) * ((1 : ℝ)/18) + (0 : ℝ) * ((-1 : ℝ)/18) + (0 : ℝ) * (0 : ℝ) + (1 : ℝ) * (0 : ℝ) = (0 : ℝ)
    norm_num
  · rw [Matrix.mul_apply, Fin.sum_univ_four]
    show (0 : ℝ) * ((37 : ℝ)/270) + (0 : ℝ) * ((17 : ℝ)/270) + (0 : ℝ) * ((-1 : ℝ)/3) + (1 : ℝ) * (0 : ℝ) = (0 : ℝ)
    norm_num
  · rw [Matrix.mul_apply, Fin.sum_univ_four]
    show (0 : ℝ) * (0 : ℝ) + (0 : ℝ) * (0 : ℝ) + (0 : ℝ) * (0 : ℝ) + (1 : ℝ) * (1 : ℝ) = (1 : ℝ)
    norm_num

theorem cOdet : cO8.det ≠ 0 := det_ne_zero_of_right_inv cOprod

theorem cbot : ∀ j : Fin 4, cO8 3 j = if j = 3 then 1 else 0 := by
  intro j
  fin_cases j <;> rfl

theorem cvs0 : voxel_sizes cO8 0 = Real.sqrt 181 := by
  show Real.sqrt ((10:ℝ)^2 + (9:ℝ)^2 + (0:ℝ)^2) = Real.sqrt 181
  norm_num

theorem cvs1 : voxel_sizes cO8 1 = Real.sqrt 181 := by
  show Real.sqrt ((10:ℝ)^2 + (-9:ℝ)^2 + (0:ℝ)^2) = Real.sqrt 181
  norm_num

theorem cvs2 : voxel_sizes cO8 2 = 7 := by
  show Real.sqrt ((6:ℝ)^2 + (2:ℝ)^2 + (-3:ℝ)^2) = 7
  rw [show ((6:ℝ)^2 + (2:ℝ)^2 + (-3:ℝ)^2) = 7^2 by norm_num,
    Real.sqrt_sq (by norm_num : (0:ℝ) ≤ 7)]

theorem ccm0 : colMaxAbs cO8 0 = 10 := by
  show max (max |(10:ℝ)| |(9:ℝ)|) |(0:ℝ)| = 10
  norm_num

theorem ccm1 : colMaxAbs cO8 1 = 10 := by
  show max (max |(10:ℝ)| |(-9:ℝ)|) |(0:ℝ)| = 10
  norm_num

theorem ccm2 : colMaxAbs cO8 2 = 6 := by
  show max (max |(6:ℝ)| |(2:ℝ)|) |(-3:ℝ)| = 6
  norm_num

theorem abs_div7_lt (x : ℝ) (hx : |x| ≤ 6) : |x/7| < Real.sqrt 3 / 2 := by
  have h127 : (12:ℝ)/7 < Real.sqrt 3 := by
    rw [Real.lt_sqrt (by norm_num)]
    norm_num
  rw [abs_div, show |(7:ℝ)| = 7 by norm_num]
  linarith

theorem abs_div_sqrt181_lt (x : ℝ) (hx : |x| ≤ 10) :
    |x / Real.sqrt 181| < Real.sqrt 3 / 2 := by
  have h13 : (13:ℝ) < Real.sqrt 181 := by
    rw [Real.lt_sqrt (by norm_num)]
    norm_num
  have h2013 : (20:ℝ)/13 < Real.sqrt 3 := by
    rw [Real.lt_sqrt (by norm_num)]
    norm_num
  have hpos : (0:ℝ) < Real.sqrt 181 := by linarith
  rw [abs_div, abs_of_pos hpos]
  have h1 : |x| / Real.sqrt 181 ≤ |x| / 13 :=
    div_le_div_of_nonneg_left (abs_nonneg x) (by norm_num) (le_of_lt h13)
  have h2 : |x| / 13 ≤ 10 / 13 := by
    apply div_le_div_of_nonneg_right hx
    norm_num
  linarith

theorem cbc : ∀ i : Fin 3, 0 ≤ bestCos cO8 i ∧ bestCos cO8 i < Real.sqrt 3 / 2 := by
  intro i
  refine ⟨le_trans (abs_nonneg _) (le_max_right _ _), ?_⟩
  fin_cases i
  · unfold bestCos
    rw [cvs0, cvs1, cvs2]
    show max (max |(10:ℝ) / Real.sqrt 181| |(10:ℝ) / Real.sqrt 181|) |(6:ℝ)/7| <
      Real.sqrt 3 / 2
    exact max_lt (max_lt (abs_div_sqrt181_lt 10 (by norm_num))
      (abs_div_sqrt181_lt 10 (by norm_num))) (abs_div7_lt 6 (by norm_num))
  · unfold bestCos
    rw [cvs0, cvs1, cvs2]
    show max (max |(9:ℝ) / Real.sqrt 181| |(-9:ℝ) / Real.sqrt 181|) |(2:ℝ)/7| <
      Real.sqrt 3 / 2
    exact max_lt (max_lt (abs_div_sqrt181_lt 9 (by norm_num))
      (abs_div_sqrt181_lt (-9) (by norm_num))) (abs_div7_lt 2 (by norm_num))
  · unfold bestCos
    rw [cvs0, cvs1, cvs2]
    show max (max |(0:ℝ) / Real.sqrt 181| |(0:ℝ) / Real.sqrt 181|) |(-3:ℝ)/7| <
      Real.sqrt 3 / 2
    exact max_lt (max_lt (abs_div_sqrt181_lt 0 (by norm_num))
      (abs_div_sqrt181_lt 0 (by norm_num))) (abs_div7_lt (-3) (by norm_num))

theorem cobl : _is_oblique cO8 OBLIQUITY_THRESHOLD_DEG :=
  oblique_of_bestCos_lt cO8 cbc

theorem chmul0 : ∀ (M : Mat4R) (i : Fin 4), M.mulVec (centerVec wS8) i = M i 3 := by
  have hcv0 : centerVec wS8 0 = 0 := by
    show ((0 : ℕ) : ℝ) / 2 = 0
    norm_num
  have hcv1 : centerVec wS8 1 = 0 := by
    show ((0 : ℕ) : ℝ) / 2 = 0
    norm_num
  have hcv2 : centerVec wS8 2 = 0 := by
    show ((0 : ℕ) : ℝ) / 2 = 0
    norm_num
  intro M i
  have e : M.mulVec (centerVec wS8) i =
      M i 0 * centerVec wS8 0 + M i 1 * centerVec wS8 1 +
      M i 2 * centerVec wS8 2 + M i 3 * centerVec wS8 3 := by
    simp [Matrix.mulVec, Matrix.dotProduct, Fin.sum_univ_four]
  rw [e, hcv0, hcv1, hcv2, centerVec_last wS8]
  ring

theorem crow1 : ∀ j : Fin 4, plumbAff cO8 wS8 1 j = 0 := by
  intro j
  fin_cases j
  · show plumbAff cO8 wS8 (Fin.castSucc 1) (Fin.castSucc 0) = (0 : ℝ)
    rw [plumbAff_entry cO8 wS8 1 0]
    unfold plumbR
    rw [ccm0]
    show (if |(9:ℝ)/10| < 1 then (0:ℝ) else (9:ℝ)/10) * voxel_sizes cO8 0 = 0
    rw [if_pos (by rw [abs_div]; norm_num), zero_mul]
  · show plumbAff cO8 wS8 (Fin.castSucc 1) (Fin.castSucc 1) = (0 : ℝ)
    rw [plumbAff_entry cO8 wS8 1 1]
    unfold plumbR
    rw [ccm1]
    show (if |(-9:ℝ)/10| < 1 then (0:ℝ) else (-9:ℝ)/10) * voxel_sizes cO8 1 = 0
    rw [if_pos (by rw [abs_div]; norm_num), zero_mul]
  · show plumbAff cO8 wS8 (Fin.castSucc 1) (Fin.castSucc 2) = (0 : ℝ)
    rw [plumbAff_entry cO8 wS8 1 2]
    unfold plumbR
    rw [ccm2]
    show (if |(2:ℝ)/6| < 1 then (0:ℝ) else (2:ℝ)/6) * voxel_sizes cO8 2 = 0
    rw [if_pos (by rw [abs_div]; norm_num), zero_mul]
  · show plumbAff cO8 wS8 (Fin.castSucc 1) 3 = (0 : ℝ)
    rw [plumbAff_col3 cO8 wS8 (Fin.castSucc 1) (by decide), chmul0, chmul0,
      plumb0_col3 cO8 (Fin.castSucc 1) (by decide), sub_zero]
    rfl

theorem cdet0 : (plumbAff cO8 wS8).det = 0 :=
  Matrix.det_eq_zero_of_row_eq_zero 1 crow1

/-- C8 counterexample to the unamended claim: `cO8` is invertible, has a
homogeneous bottom row and is oblique, yet both dominant entries of its
first two columns sit in row 0, so the plumb affine has an all-zero second
row and the `forward` warpdrive matrix is singular: the forward and backward
results are not inverses of each other. -/
theorem claim_C8_counterexample :
    (∀ j : Fin 4, cO8 3 j = if j = 3 then 1 else 0) ∧
    cO8.det ≠ 0 ∧
    _is_oblique cO8 OBLIQUITY_THRESHOLD_DEG ∧
    ¬ (_afni_warpdrive cO8 wS8 true true * _afni_warpdrive cO8 wS8 false true = 1) := by
  refine ⟨cbot, cOdet, cobl, ?_⟩
  intro h
  have hd := congrArg Matrix.det h
  rw [Matrix.det_mul, Matrix.det_one] at hd
  have hfw : (_afni_warpdrive cO8 wS8 true true).det = 0 := by
    show (plumbAff cO8 wS8 * cO8⁻¹).det = 0
    rw [Matrix.det_mul, cdet0, zero_mul]
  rw [hfw, zero_mul] at hd
  exact zero_ne_one hd
